import Mathlib

/-
  Verification development for the `kernel-kv` repository.

  Shallow embedding conventions:
  * Byte strings are `List Nat` (each element a byte value); `Instant` and
    `Duration` are `Nat` (an abstract monotone clock tick); `usize`/`u64`
    arithmetic is `Nat` with explicit saturation/truncation mirroring the
    `saturating_*` calls in the source, and `i64` is `Int` with explicit
    clamping at the `i64` bounds.
  * Fallible Rust functions returning `Result`/`Option` become `Except`/
    `Option` valued Lean functions.
  * Readers (`impl BufRead`) become an explicit `List Nat` of the bytes not
    yet consumed; a parsing function returns the parsed value together with
    the remaining bytes.
-/

namespace KernelKV

/-! ## Section 1: byte-level helpers shared by the codecs -/

/-- Bytes of a Rust string literal (ASCII). -/
def strBytes (s : String) : List Nat := s.toList.map Char.toNat

/-- Test for an ASCII decimal digit, `b'0' <= b && b <= b'9'`. -/
def isDigitByte (b : Nat) : Bool := decide (48 ≤ b) && decide (b ≤ 57)

/-- Value of a most-significant-first ASCII decimal digit string, with
no overflow (plain `Nat`).  Used as the mathematical reference against
which the saturating accumulation loops of the source are compared. -/
def decValue (ds : List Nat) : Nat := ds.foldl (fun v b => v * 10 + (b - 48)) 0

/-- `u64::MAX`. -/
def u64Max : Nat := 2 ^ 64 - 1

/-- `i64::MAX`. -/
def i64Max : Int := 2 ^ 63 - 1

/-- `i64::MIN`. -/
def i64Min : Int := -(2 ^ 63)

/-- `u64::saturating_add`. -/
def satAddU64 (a b : Nat) : Nat := min (a + b) u64Max

/-- `u64::saturating_mul`. -/
def satMulU64 (a b : Nat) : Nat := min (a * b) u64Max

/-- `i64::saturating_add`. -/
def satAddI64 (a b : Int) : Int := max (min (a + b) i64Max) i64Min

/-- `i64::saturating_mul`. -/
def satMulI64 (a b : Int) : Int := max (min (a * b) i64Max) i64Min

theorem decValue_foldl (ds : List Nat) :
    ∀ v : Nat, ds.foldl (fun v b => v * 10 + (b - 48)) v =
      v * 10 ^ ds.length + decValue ds := by
  induction ds with
  | nil => intro v; simp [decValue]
  | cons c cs ih =>
    intro v
    show List.foldl _ (v * 10 + (c - 48)) cs = _
    rw [ih (v * 10 + (c - 48))]
    have hd : decValue (c :: cs) = (0 * 10 + (c - 48)) * 10 ^ cs.length + decValue cs := by
      show List.foldl _ (0 * 10 + (c - 48)) cs = _
      rw [ih (0 * 10 + (c - 48))]
    rw [hd]
    simp [List.length_cons, pow_succ]
    ring

theorem decValue_cons (b : Nat) (ds : List Nat) :
    decValue (b :: ds) = decValue ds + (b - 48) * 10 ^ ds.length := by
  show List.foldl _ ((0 : Nat) * 10 + (b - 48)) ds = _
  rw [decValue_foldl ds ((0 : Nat) * 10 + (b - 48))]
  ring

/-! ## Section 2: `parse_u64` (src/hkv-server/src/server.rs, lines 226-238)

The server parses `SET ... EX <secs>` and `EXPIRE <secs>` arguments with a
hand-rolled unsigned decimal loop using `saturating_mul`/`saturating_add`. -/

/-- `resp_error` (src/hkv-server/src/server.rs): `-ERR <msg>\r\n`. -/
def respErrorBytes (msg : String) : List Nat :=
  strBytes "-ERR " ++ strBytes msg ++ [13, 10]

/-- Accumulation loop of `parse_u64`: over each byte, reject non-digits and
otherwise fold with `value.saturating_mul(10).saturating_add(b - b'0')`. -/
def parseU64Loop : List Nat → Nat → Except (List Nat) Nat
  | [], value => .ok value
  | b :: rest, value =>
    if b < 48 ∨ 57 < b then .error (respErrorBytes "invalid integer")
    else parseU64Loop rest (satAddU64 (satMulU64 value 10) (b - 48))

/-- `parse_u64` (src/hkv-server/src/server.rs): empty argument is an error,
otherwise the saturating digit loop. -/
def parseU64 (arg : List Nat) : Except (List Nat) Nat :=
  if arg.isEmpty then .error (respErrorBytes "invalid integer")
  else parseU64Loop arg 0

/-- Reference form of `parse_u64` written from the claim: all-digit arguments
always succeed, with the value saturating at `u64::MAX`; only an empty
argument or one containing a non-digit byte errors. -/
def parseU64Spec (arg : List Nat) : Except (List Nat) Nat :=
  if arg.isEmpty ∨ arg.any (fun b => ! isDigitByte b) then
    .error (respErrorBytes "invalid integer")
  else
    .ok (min (decValue arg) u64Max)

theorem parseU64Loop_sat (ds : List Nat) :
    ∀ v p : Nat, v = min p u64Max →
      (∀ b ∈ ds, isDigitByte b) →
      parseU64Loop ds v =
        .ok (min (ds.foldl (fun v b => v * 10 + (b - 48)) p) u64Max) := by
  induction ds with
  | nil => intro v p hv _; simp [parseU64Loop, hv]
  | cons b rest ih =>
    intro v p hv hds
    have hb : isDigitByte b := hds b (List.mem_cons_self b rest)
    have hb' : ¬(b < 48 ∨ 57 < b) := by
      simp only [isDigitByte, Bool.and_eq_true, decide_eq_true_eq] at hb
      omega
    show parseU64Loop (b :: rest) v = _
    rw [parseU64Loop, if_neg hb']
    refine ih _ (p * 10 + (b - 48)) ?_ (fun c hc => hds c (List.mem_cons_of_mem _ hc))
    subst hv
    simp only [satAddU64, satMulU64]
    rcases le_or_lt p u64Max with h | h
    · rw [min_eq_left h]
      rcases le_or_lt (p * 10) u64Max with h2 | h2
      · rw [min_eq_left h2]
      · rw [min_eq_right (le_of_lt h2)]
        have : u64Max ≤ p * 10 + (b - 48) := le_trans (le_of_lt h2) (Nat.le_add_right _ _)
        omega
    · rw [min_eq_right (le_of_lt h)]
      have h10 : u64Max ≤ u64Max * 10 := by simp [u64Max]
      rw [min_eq_right h10]
      have : u64Max ≤ p * 10 + (b - 48) := by nlinarith
      omega

theorem parseU64Loop_err (ds : List Nat) (hd : ∃ b ∈ ds, ¬ isDigitByte b) :
    ∀ v, parseU64Loop ds v = .error (respErrorBytes "invalid integer") := by
  induction ds with
  | nil => simp at hd
  | cons b rest ih =>
    intro v
    by_cases hb : isDigitByte b
    · have hb' : ¬(b < 48 ∨ 57 < b) := by
        simp only [isDigitByte, Bool.and_eq_true, decide_eq_true_eq] at hb
        omega
      rw [parseU64Loop, if_neg hb']
      refine ih ?_ _
      rcases hd with ⟨c, hc, hcd⟩
      rcases List.mem_cons.mp hc with rfl | hc'
      · exact absurd hb hcd
      · exact ⟨c, hc', hcd⟩
    · have hb' : b < 48 ∨ 57 < b := by
        simp only [isDigitByte, Bool.and_eq_true, decide_eq_true_eq] at hb
        omega
      rw [parseU64Loop, if_pos hb']

theorem parseU64_eq_spec (arg : List Nat) : parseU64 arg = parseU64Spec arg := by
  unfold parseU64 parseU64Spec
  by_cases he : arg.isEmpty
  · simp [he]
  · by_cases hd : arg.any (fun b => ! isDigitByte b)
    · have herr := parseU64Loop_err arg
        (by rcases List.any_eq_true.mp hd with ⟨b, hb, hbd⟩
            exact ⟨b, hb, by simpa using hbd⟩) 0
      simp [he, hd, herr]
    · have hds : ∀ b ∈ arg, isDigitByte b := by
        intro b hb
        by_contra hcon
        exact hd (List.any_eq_true.mpr ⟨b, hb, by simp [hcon]⟩)
      have hsat := parseU64Loop_sat arg 0 0 (by simp [u64Max]) hds
      simp only [Nat.zero_mul] at hsat
      simp [he, hd, hsat, decValue]

/-! ## Section 3: client RESP2 codec (src/hkv-client/src/resp.rs)

`ClientError` is from src/hkv-client/src/client.rs (the `Io` payload is
dropped: the embedding does not model `std::io::Error` values). -/

inductive ClientError where
  | Io
  | Protocol
  | Server (message : List Nat)
  | UnexpectedResponse
  | PoolExhausted
  | InvalidAddress
deriving DecidableEq, Repr

/-- `RespValue` (src/hkv-client/src/resp.rs). -/
inductive RespValue where
  | Simple (data : List Nat)
  | Error (data : List Nat)
  | Integer (value : Int)
  | Bulk (data : Option (List Nat))
  | Array (items : List RespValue)
deriving BEq

/-- Digit loop of `parse_i64`: reject non-digit bytes, accumulate with
`value.saturating_mul(10).saturating_add((b - b'0') as i64)`. -/
def parseI64Loop : List Nat → Int → Except ClientError Int
  | [], value => .ok value
  | b :: rest, value =>
    if b < 48 ∨ 57 < b then .error .Protocol
    else parseI64Loop rest (satAddI64 (satMulI64 value 10) ((b - 48 : Nat) : Int))

/-- `parse_i64` (src/hkv-client/src/resp.rs, lines 119-145): empty input is
`Protocol`; a leading `b'-'` is skipped and the accumulated magnitude is
negated at the end. -/
def parseI64 : List Nat → Except ClientError Int
  | [] => .error .Protocol
  | b :: rest =>
    if b = 45 then (parseI64Loop rest 0).map (fun v => -v)
    else parseI64Loop (b :: rest) 0

/-- Reference form of `parse_i64`, written from the amended claim: the input
errors with `Protocol` iff it is empty or some byte after the optional
leading `-` is a non-digit (so `"-"` alone parses as 0); otherwise the
decimal magnitude saturates at `i64::MAX` and is then negated when the sign
was present (so negative results saturate at `-(2^63 - 1)`). -/
def parseI64Spec : List Nat → Except ClientError Int
  | [] => .error .Protocol
  | b :: rest =>
    if b = 45 then
      if rest.any (fun c => ! isDigitByte c) then .error .Protocol
      else .ok (-(min ((decValue rest : Nat) : Int) i64Max))
    else
      if (b :: rest).any (fun c => ! isDigitByte c) then .error .Protocol
      else .ok (min ((decValue (b :: rest) : Nat) : Int) i64Max)

theorem parseI64Loop_err (ds : List Nat) (hd : ∃ b ∈ ds, ¬ isDigitByte b) :
    ∀ v, parseI64Loop ds v = .error .Protocol := by
  induction ds with
  | nil => simp at hd
  | cons b rest ih =>
    intro v
    by_cases hb : isDigitByte b
    · have hb' : ¬(b < 48 ∨ 57 < b) := by
        simp only [isDigitByte, Bool.and_eq_true, decide_eq_true_eq] at hb
        omega
      rw [parseI64Loop, if_neg hb']
      refine ih ?_ _
      rcases hd with ⟨c, hc, hcd⟩
      rcases List.mem_cons.mp hc with rfl | hc'
      · exact absurd hb hcd
      · exact ⟨c, hc', hcd⟩
    · have hb' : b < 48 ∨ 57 < b := by
        simp only [isDigitByte, Bool.and_eq_true, decide_eq_true_eq] at hb
        omega
      rw [parseI64Loop, if_pos hb']

theorem parseI64Loop_sat (ds : List Nat) :
    ∀ (v : Int) (p : Nat), v = min (p : Int) i64Max →
      (∀ b ∈ ds, isDigitByte b) →
      parseI64Loop ds v =
        .ok (min ((ds.foldl (fun v b => v * 10 + (b - 48)) p : Nat) : Int) i64Max) := by
  induction ds with
  | nil => intro v p hv _; simp [parseI64Loop, hv]
  | cons b rest ih =>
    intro v p hv hds
    have hb : isDigitByte b := hds b (List.mem_cons_self b rest)
    have hb' : ¬(b < 48 ∨ 57 < b) := by
      simp only [isDigitByte, Bool.and_eq_true, decide_eq_true_eq] at hb
      omega
    rw [parseI64Loop, if_neg hb']
    refine ih _ (p * 10 + (b - 48)) ?_ (fun c hc => hds c (List.mem_cons_of_mem _ hc))
    subst hv
    simp only [satAddI64, satMulI64, i64Max, i64Min]
    push_cast
    omega

theorem parseI64_eq_spec (data : List Nat) : parseI64 data = parseI64Spec data := by
  match data with
  | [] => rfl
  | b :: rest =>
    rw [parseI64, parseI64Spec]
    by_cases hb : b = 45
    · rw [if_pos hb, if_pos hb]
      by_cases hd : rest.any (fun c => ! isDigitByte c)
      · rw [if_pos hd, parseI64Loop_err rest ?_ 0]
        · rfl
        · rcases List.any_eq_true.mp hd with ⟨c, hc, hcd⟩
          exact ⟨c, hc, by simpa using hcd⟩
      · rw [if_neg hd]
        have hds : ∀ c ∈ rest, isDigitByte c := by
          intro c hc
          by_contra hcon
          exact hd (List.any_eq_true.mpr ⟨c, hc, by simp [hcon]⟩)
        rw [parseI64Loop_sat rest 0 0 (by norm_num [i64Max]) hds]
        rfl
    · rw [if_neg hb, if_neg hb]
      by_cases hd : (b :: rest).any (fun c => ! isDigitByte c)
      · rw [if_pos hd, parseI64Loop_err (b :: rest) ?_ 0]
        rcases List.any_eq_true.mp hd with ⟨c, hc, hcd⟩
        exact ⟨c, hc, by simpa using hcd⟩
      · rw [if_neg hd]
        have hds : ∀ c ∈ b :: rest, isDigitByte c := by
          intro c hc
          by_contra hcon
          exact hd (List.any_eq_true.mpr ⟨c, hc, by simp [hcon]⟩)
        rw [parseI64Loop_sat (b :: rest) 0 0 (by norm_num [i64Max]) hds]
        rfl

/-- Digit-extraction loop of `push_usize`: digits least-significant first.
The first argument is structural fuel (the loop divides by ten, so any fuel
at least the value itself suffices); it exists only to keep the definition
kernel-reducible. -/
def pushUsizeLoopGo : Nat → Nat → List Nat
  | _, 0 => []
  | 0, _ + 1 => []
  | fuel + 1, v + 1 => (48 + (v + 1) % 10) :: pushUsizeLoopGo fuel ((v + 1) / 10)

/-- Digit-extraction loop of `push_usize` with adequate fuel. -/
def pushUsizeLoop (value : Nat) : List Nat := pushUsizeLoopGo value value

/-- `push_usize` (src/hkv-client/src/resp.rs): decimal ASCII of a `usize`,
zero printed as `"0"`, digits emitted most-significant first. -/
def pushUsize (value : Nat) : List Nat :=
  if value = 0 then [48] else (pushUsizeLoop value).reverse

/-- `encode_command` encoding of a single argument:
`$<len>\r\n<arg>\r\n`. -/
def encodeBulkItem (arg : List Nat) : List Nat :=
  36 :: pushUsize arg.length ++ [13, 10] ++ arg ++ [13, 10]

/-- `encode_command` (src/hkv-client/src/resp.rs, lines 32-43):
`*<n>\r\n` followed by each argument as a bulk string. -/
def encodeCommand (args : List (List Nat)) : List Nat :=
  42 :: pushUsize args.length ++ [13, 10] ++ (args.map encodeBulkItem).flatten

/-- `BufRead::read_until(b'\n')`: the consumed chunk (including the delimiter
when present) together with the bytes left in the reader. -/
def readUntilLF : List Nat → List Nat × List Nat
  | [] => ([], [])
  | b :: rest =>
    if b = 10 then ([b], rest)
    else
      let p := readUntilLF rest
      (b :: p.1, p.2)

/-- `read_line` (src/hkv-client/src/resp.rs, lines 106-117): zero bytes read
or a buffer not ending in `\r` before the final position is `Protocol`;
otherwise the trailing two bytes are truncated away. -/
def readLine (input : List Nat) : Except ClientError (List Nat × List Nat) :=
  let p := readUntilLF input
  let buf := p.1
  if buf.length = 0 then .error .Protocol
  else if buf.length < 2 then .error .Protocol
  else if buf.getD (buf.length - 2) 0 ≠ 13 then .error .Protocol
  else .ok (buf.take (buf.length - 2), p.2)

/-- `Read::read_exact`: `Io` if the reader holds fewer than `n` bytes. -/
def readExact (n : Nat) (input : List Nat) : Except ClientError (List Nat × List Nat) :=
  if input.length < n then .error .Io else .ok (input.take n, input.drop n)

/-- `parse_bulk_len` (src/hkv-client/src/resp.rs, lines 68-88): negative
lengths are the null bulk; otherwise exactly `len` payload bytes then CRLF. -/
def parseBulkLen (len : Int) (input : List Nat) :
    Except ClientError (RespValue × List Nat) :=
  if len < 0 then .ok (.Bulk none, input)
  else do
    let (data, r1) ← readExact len.toNat input
    let (crlf, r2) ← readExact 2 r1
    if crlf = [13, 10] then .ok (.Bulk (some data), r2) else .error .Protocol

mutual

/-- `read_response` (src/hkv-client/src/resp.rs, lines 46-66).  The extra
`fuel` argument only bounds the recursion into array elements (the Rust
recursion is unbounded but consumes input on every level); every theorem
below supplies enough fuel that the `fuel = 0` fallback is never reached. -/
def readResponse : Nat → List Nat → Except ClientError (RespValue × List Nat)
  | 0, _ => .error .Protocol
  | fuel + 1, input => do
    let (line, rest) ← readLine input
    match line with
    | [] => .error .Protocol
    | b :: payload =>
      if b = 43 then .ok (.Simple payload, rest)
      else if b = 45 then .ok (.Error payload, rest)
      else if b = 58 then do
        let v ← parseI64 payload
        .ok (.Integer v, rest)
      else if b = 36 then do
        let len ← parseI64 payload
        parseBulkLen len rest
      else if b = 42 then do
        let len ← parseI64 payload
        parseArrayLen fuel len rest
      else .error .Protocol
termination_by fuel _ => (fuel, 0, 0)

/-- `parse_array_len` (src/hkv-client/src/resp.rs, lines 90-104): `len <= 0`
is the empty array, otherwise `len` recursively parsed elements. -/
def parseArrayLen (fuel : Nat) (len : Int) (input : List Nat) :
    Except ClientError (RespValue × List Nat) :=
  if len ≤ 0 then .ok (.Array [], input)
  else do
    let (items, r) ← arrayItems fuel len.toNat input
    .ok (.Array items, r)
termination_by (fuel, 2, 0)

/-- Element loop of `parse_array_len`. -/
def arrayItems : Nat → Nat → List Nat → Except ClientError (List RespValue × List Nat)
  | _, 0, input => .ok ([], input)
  | fuel, n + 1, input => do
    let (v, r) ← readResponse fuel input
    let (vs, r2) ← arrayItems fuel n r
    .ok (v :: vs, r2)
termination_by fuel n _ => (fuel, 1, n)

end

/-- Entry point used by the client: parse one value from the reader.  The
fuel `input.length + 2` dominates the array-nesting depth of any input the
theorems below consider. -/
def readResponseFrom (input : List Nat) : Except ClientError (RespValue × List Nat) :=
  readResponse (input.length + 2) input

/-! ### Decimal digit facts for `push_usize` -/

theorem decValue_append_singleton (xs : List Nat) (b : Nat) :
    decValue (xs ++ [b]) = decValue xs * 10 + (b - 48) := by
  unfold decValue
  rw [List.foldl_append]
  rfl

theorem pushUsizeLoopGo_digits (fuel : Nat) :
    ∀ n, ∀ b ∈ pushUsizeLoopGo fuel n, 48 ≤ b ∧ b ≤ 57 := by
  induction fuel with
  | zero =>
    intro n b hb
    cases n <;> simp [pushUsizeLoopGo] at hb
  | succ fuel ih =>
    intro n b hb
    cases n with
    | zero => simp [pushUsizeLoopGo] at hb
    | succ v =>
      rw [pushUsizeLoopGo] at hb
      rcases List.mem_cons.mp hb with rfl | hb'
      · have := Nat.mod_lt (v + 1) (show 0 < 10 by norm_num)
        omega
      · exact ih ((v + 1) / 10) b hb'

theorem pushUsizeLoop_digits (n : Nat) : ∀ b ∈ pushUsizeLoop n, 48 ≤ b ∧ b ≤ 57 :=
  pushUsizeLoopGo_digits n n

theorem pushUsizeLoopGo_decValue (fuel : Nat) :
    ∀ n, n ≤ fuel → decValue (pushUsizeLoopGo fuel n).reverse = n := by
  induction fuel with
  | zero =>
    intro n hn
    interval_cases n
    simp [pushUsizeLoopGo, decValue]
  | succ fuel ih =>
    intro n hn
    cases n with
    | zero => simp [pushUsizeLoopGo, decValue]
    | succ v =>
      rw [pushUsizeLoopGo, List.reverse_cons, decValue_append_singleton,
        ih ((v + 1) / 10) (by omega)]
      omega

theorem pushUsizeLoop_decValue (n : Nat) : decValue (pushUsizeLoop n).reverse = n :=
  pushUsizeLoopGo_decValue n n (le_refl n)

theorem pushUsize_digits (n : Nat) : ∀ b ∈ pushUsize n, 48 ≤ b ∧ b ≤ 57 := by
  unfold pushUsize
  by_cases h : n = 0
  · simp [h]
  · rw [if_neg h]
    intro b hb
    exact pushUsizeLoop_digits n b (List.mem_reverse.mp hb)

theorem pushUsize_decValue (n : Nat) : decValue (pushUsize n) = n := by
  unfold pushUsize
  by_cases h : n = 0
  · simp [h, decValue]
  · rw [if_neg h]
    exact pushUsizeLoop_decValue n

theorem pushUsize_ne_nil (n : Nat) : pushUsize n ≠ [] := by
  unfold pushUsize
  by_cases h : n = 0
  · simp [h]
  · rw [if_neg h]
    intro hcon
    have := pushUsizeLoop_decValue n
    rw [hcon] at this
    simp [decValue] at this
    exact h this.symm

theorem parseI64_pushUsize (n : Nat) (hn : n ≤ 2 ^ 63 - 1) :
    parseI64 (pushUsize n) = .ok (n : Int) := by
  rcases hne : pushUsize n with _ | ⟨b, rest⟩
  · exact absurd hne (pushUsize_ne_nil n)
  · have hdig : ∀ c ∈ pushUsize n, 48 ≤ c ∧ c ≤ 57 := pushUsize_digits n
    rw [hne] at hdig
    have hb : 48 ≤ b ∧ b ≤ 57 := hdig b (List.mem_cons_self _ _)
    rw [parseI64_eq_spec, parseI64Spec]
    rw [if_neg (by omega)]
    rw [if_neg ?hdigits]
    case hdigits =>
      simp only [List.any_eq_true, not_exists]
      intro c
      rintro ⟨hc, hcd⟩
      have := hdig c hc
      simp only [isDigitByte, Bool.and_eq_true, decide_eq_true_eq] at hcd
      rcases this with ⟨h1, h2⟩
      simp at hcd
      omega
    · have hv : decValue (b :: rest) = n := by
        rw [← hne]; exact pushUsize_decValue n
      rw [hv]
      congr 1
      have : ((n : Int)) ≤ i64Max := by
        simp only [i64Max]
        omega
      omega

/-! ### Round-trip of `encode_command` through `read_response` (claim C2) -/

theorem readUntilLF_split (line rest : List Nat) (h10 : 10 ∉ line) :
    readUntilLF (line ++ 13 :: 10 :: rest) = (line ++ [13, 10], rest) := by
  induction line with
  | nil =>
    show readUntilLF (13 :: 10 :: rest) = _
    rw [readUntilLF, if_neg (by norm_num)]
    rw [readUntilLF, if_pos rfl]
    rfl
  | cons b bs ih =>
    have hb : b ≠ 10 := fun hcon => h10 (by simp [hcon])
    show readUntilLF (b :: (bs ++ 13 :: 10 :: rest)) = _
    rw [readUntilLF, if_neg hb, ih (fun hcon => h10 (List.mem_cons_of_mem _ hcon))]
    rfl

theorem readLine_crlf (line rest : List Nat) (h10 : 10 ∉ line) :
    readLine (line ++ 13 :: 10 :: rest) = .ok (line, rest) := by
  unfold readLine
  rw [readUntilLF_split line rest h10]
  simp only
  rw [if_neg (by simp), if_neg (by simp)]
  have hget : (line ++ [13, 10]).getD ((line ++ [13, 10]).length - 2) 0 = 13 := by
    have hlen : (line ++ [13, 10]).length - 2 = line.length := by simp
    rw [hlen, List.getD_eq_getElem?_getD, List.getElem?_append_right (le_refl _)]
    simp
  rw [if_neg (by rw [hget]; exact fun hcon => hcon rfl)]
  have htake : (line ++ [13, 10]).take ((line ++ [13, 10]).length - 2) = line := by
    have hlen : (line ++ [13, 10]).length - 2 = line.length := by simp
    rw [hlen, List.take_left]
  rw [htake]

theorem readResponse_step (fuel : Nat) (line rest : List Nat) (h10 : 10 ∉ line) :
    readResponse (fuel + 1) (line ++ 13 :: 10 :: rest) =
      (match line with
      | [] => .error .Protocol
      | b :: payload =>
        if b = 43 then .ok (.Simple payload, rest)
        else if b = 45 then .ok (.Error payload, rest)
        else if b = 58 then do
          let v ← parseI64 payload
          .ok (.Integer v, rest)
        else if b = 36 then do
          let len ← parseI64 payload
          parseBulkLen len rest
        else if b = 42 then do
          let len ← parseI64 payload
          parseArrayLen fuel len rest
        else .error .Protocol) := by
  unfold readResponse
  rw [readLine_crlf _ _ h10]
  cases line with
  | nil => rfl
  | cons b payload => rfl

theorem parseBulkLen_encode (a rest : List Nat) :
    parseBulkLen (a.length : Int) (a ++ 13 :: 10 :: rest) = .ok (.Bulk (some a), rest) := by
  unfold parseBulkLen
  rw [if_neg (by omega)]
  have hre1 : readExact ((a.length : Int)).toNat (a ++ 13 :: 10 :: rest) =
      .ok (a, 13 :: 10 :: rest) := by
    unfold readExact
    rw [if_neg (by simp)]
    have htake : (a ++ 13 :: 10 :: rest).take a.length = a := List.take_left a _
    have hdrop : (a ++ 13 :: 10 :: rest).drop a.length = 13 :: 10 :: rest := List.drop_left a _
    simp [htake, hdrop]
  rw [hre1]
  have hre2 : readExact 2 (13 :: 10 :: rest) = .ok ([13, 10], rest) := by
    unfold readExact
    rw [if_neg (by simp)]
    rfl
  show (do
    let (crlf, r2) ← readExact 2 (13 :: 10 :: rest)
    if crlf = [13, 10] then Except.ok (RespValue.Bulk (some a), r2)
    else Except.error ClientError.Protocol) = _
  rw [hre2]
  rfl

theorem readResponse_bulk (fuel : Nat) (a rest : List Nat)
    (ha : a.length ≤ 2 ^ 63 - 1) :
    readResponse (fuel + 1) (encodeBulkItem a ++ rest) = .ok (.Bulk (some a), rest) := by
  have hsplit : encodeBulkItem a ++ rest =
      (36 :: pushUsize a.length) ++ 13 :: 10 :: (a ++ 13 :: 10 :: rest) := by
    simp [encodeBulkItem]
  have h10 : 10 ∉ 36 :: pushUsize a.length := by
    intro hcon
    rcases List.mem_cons.mp hcon with h | h
    · norm_num at h
    · have := pushUsize_digits a.length 10 h
      omega
  rw [hsplit, readResponse_step fuel _ _ h10]
  show (do
    let len ← parseI64 (pushUsize a.length)
    parseBulkLen len (a ++ 13 :: 10 :: rest)) = _
  rw [parseI64_pushUsize a.length ha]
  show parseBulkLen ((a.length : Nat) : Int) (a ++ 13 :: 10 :: rest) = _
  exact parseBulkLen_encode a rest

theorem arrayItems_encode (args : List (List Nat)) (fuel : Nat)
    (ha : ∀ a ∈ args, a.length ≤ 2 ^ 63 - 1) :
    ∀ rest, arrayItems (fuel + 1) args.length ((args.map encodeBulkItem).flatten ++ rest) =
      .ok (args.map (fun a => .Bulk (some a)), rest) := by
  induction args with
  | nil => intro rest; simp [arrayItems]
  | cons a as ih =>
    intro rest
    have hsplit : (((a :: as).map encodeBulkItem).flatten ++ rest) =
        encodeBulkItem a ++ ((as.map encodeBulkItem).flatten ++ rest) := by
      simp
    rw [hsplit]
    show arrayItems (fuel + 1) (as.length + 1) _ = _
    rw [arrayItems]
    rw [readResponse_bulk fuel a _ (ha a (List.mem_cons_self _ _))]
    show (do
      let (vs, r2) ← arrayItems (fuel + 1) as.length ((as.map encodeBulkItem).flatten ++ rest)
      Except.ok (RespValue.Bulk (some a) :: vs, r2)) = _
    rw [ih (fun x hx => ha x (List.mem_cons_of_mem _ hx)) rest]
    rfl

theorem readResponse_encodeCommand (args : List (List Nat)) (fuel : Nat) (rest : List Nat)
    (hn : args.length ≤ 2 ^ 63 - 1) (ha : ∀ a ∈ args, a.length ≤ 2 ^ 63 - 1) :
    readResponse (fuel + 2) (encodeCommand args ++ rest) =
      .ok (.Array (args.map (fun a => .Bulk (some a))), rest) := by
  have hsplit : encodeCommand args ++ rest =
      (42 :: pushUsize args.length) ++
        13 :: 10 :: ((args.map encodeBulkItem).flatten ++ rest) := by
    simp [encodeCommand]
  have h10 : 10 ∉ 42 :: pushUsize args.length := by
    intro hcon
    rcases List.mem_cons.mp hcon with h | h
    · norm_num at h
    · have := pushUsize_digits args.length 10 h
      omega
  rw [hsplit, show fuel + 2 = (fuel + 1) + 1 from rfl, readResponse_step (fuel + 1) _ _ h10]
  show (do
    let len ← parseI64 (pushUsize args.length)
    parseArrayLen (fuel + 1) len ((args.map encodeBulkItem).flatten ++ rest)) = _
  rw [parseI64_pushUsize args.length hn]
  show parseArrayLen (fuel + 1) ((args.length : Nat) : Int)
      ((args.map encodeBulkItem).flatten ++ rest) = _
  unfold parseArrayLen
  rcases hz : args with _ | ⟨a, as⟩
  · rw [if_pos (by norm_num)]
    simp
  · rw [if_neg (by simp)]
    rw [show (((a :: as).length : Nat) : Int).toNat = (a :: as).length by simp]
    rw [arrayItems_encode (a :: as) fuel (hz ▸ ha) rest]
    rfl

/-- Claim C2: encoding any argument list with the RESP2 encoder and parsing
the produced bytes with the RESP2 parser yields exactly an `Array` of `Bulk`
values equal to the arguments (the length-bound hypotheses reflect that Rust
slice lengths never exceed `isize::MAX = 2^63 - 1`); and the encoding of
`["GET","key"]` is exactly the bytes `*2\r\n$3\r\nGET\r\n$3\r\nkey\r\n`. -/
theorem claim_C2_resp_roundtrip :
    (∀ args : List (List Nat), args.length ≤ 2 ^ 63 - 1 →
      (∀ a ∈ args, a.length ≤ 2 ^ 63 - 1) →
      readResponseFrom (encodeCommand args) =
        .ok (.Array (args.map (fun a => .Bulk (some a))), [])) ∧
    encodeCommand [strBytes "GET", strBytes "key"] =
      strBytes "*2\r\n$3\r\nGET\r\n$3\r\nkey\r\n" := by
  constructor
  · intro args hn ha
    unfold readResponseFrom
    have h := readResponse_encodeCommand args (encodeCommand args).length [] hn ha
    rw [List.append_nil] at h
    exact h
  · decide

/-- Witness for claim C2: the round-trip theorem applied to the concrete
command `["GET","key"]`. -/
theorem claim_C2_resp_roundtrip_witness :
    readResponseFrom (encodeCommand [strBytes "GET", strBytes "key"]) =
      .ok (.Array [.Bulk (some (strBytes "GET")), .Bulk (some (strBytes "key"))], []) :=
  claim_C2_resp_roundtrip.1 [strBytes "GET", strBytes "key"] (by decide) (by decide)

/-- Claim C8 counterexample: on the integer payload `"-"` (a lone minus
sign, whose payload after the optional `-` is empty) `parse_i64` returns
`Ok(0)` instead of the `Protocol` error the claim requires. -/
theorem claim_C8_counterexample :
    parseI64 [45] = .ok 0 ∧ parseI64 [45] ≠ .error .Protocol := by
  constructor
  · rfl
  · intro h
    rw [show parseI64 [45] = (.ok 0 : Except ClientError Int) from rfl] at h
    exact Except.noConfusion h

/-- Claim C8 (amended): `parse_i64` errors with `Protocol` iff the input is
empty or some byte after the optional leading `-` is a non-digit — so the
input `"-"` parses as `0` rather than erroring — and otherwise the decimal
magnitude saturates at `i64::MAX` before the sign is applied (negative
results therefore saturate at `-(2^63 - 1)`), as captured by the reference
function `parseI64Spec`. -/
theorem claim_C8_parse_i64 : ∀ data, parseI64 data = parseI64Spec data :=
  parseI64_eq_spec

/-- Claim C10: the server's `parse_u64` never rejects an all-digit argument:
it errors (with the `-ERR invalid integer` reply) exactly on an empty
argument or one containing a non-digit byte, and otherwise returns the
decimal value saturated at `u64::MAX`, as captured by the reference
function `parseU64Spec`. -/
theorem claim_C10_parse_u64 : ∀ arg, parseU64 arg = parseU64Spec arg :=
  parseU64_eq_spec

/-! ## Section 4: connection pool (src/hkv-client/src/pool.rs)

Connections are opaque identifiers.  The blocking TCP connect performed by
`Connection::connect` is an external effect; `acquire` therefore takes the
outcome of that connect attempt as an explicit argument, and reports whether
the attempt was made at all. -/

/-- Pool-relevant configuration fields of `PoolConfig`. -/
structure PoolConfig where
  max_idle : Nat
  max_total : Nat
deriving Repr, DecidableEq

/-- `PoolState` (src/hkv-client/src/pool.rs): FIFO of idle connections and
the total counter (idle + checked out). -/
structure PoolState where
  idle : List Nat
  total : Nat
deriving Repr, DecidableEq

/-- `pop_idle`: take the front of the idle queue. -/
def popIdle (st : PoolState) : Option Nat × PoolState :=
  match st.idle with
  | [] => (none, st)
  | c :: rest => (some c, { st with idle := rest })

/-- `try_reserve`: refuse when `total >= max_total`, else increment `total`. -/
def tryReserve (cfg : PoolConfig) (st : PoolState) : Bool × PoolState :=
  if st.total ≥ cfg.max_total then (false, st)
  else (true, { st with total := st.total + 1 })

/-- `release_slot`: `total.saturating_sub(1)`. -/
def releaseSlot (st : PoolState) : PoolState :=
  { st with total := st.total - 1 }

/-- `ConnectionPool::acquire` (src/hkv-client/src/pool.rs, lines 70-86).
`connect` is the outcome the TCP connect would have; the returned `Bool`
records whether a connect was attempted. -/
def acquire (cfg : PoolConfig) (st : PoolState) (connect : Except ClientError Nat) :
    Except ClientError Nat × PoolState × Bool :=
  match popIdle st with
  | (some c, st') => (.ok c, st', false)
  | (none, st') =>
    match tryReserve cfg st' with
    | (false, st2) => (.error .PoolExhausted, st2, false)
    | (true, st2) =>
      match connect with
      | .ok c => (.ok c, st2, true)
      | .error e => (.error e, releaseSlot st2, true)

/-- Claim C9: with an empty idle queue and `total >= max_total`, `acquire`
returns `PoolExhausted` with the pool state unchanged and no connect attempt;
a connect is attempted only when `total < max_total`; and when the connect
fails the reserved slot is released, so the state returns to its prior
value and the connect error is surfaced. -/
theorem claim_C9_pool_exhausted (cfg : PoolConfig) (st : PoolState)
    (connect : Except ClientError Nat) :
    (st.idle = [] → cfg.max_total ≤ st.total →
      acquire cfg st connect = (.error .PoolExhausted, st, false)) ∧
    ((acquire cfg st connect).2.2 = true → st.idle = [] ∧ st.total < cfg.max_total) ∧
    (st.idle = [] → st.total < cfg.max_total → ∀ e, connect = .error e →
      acquire cfg st connect = (.error e, st, true)) := by
  refine ⟨?exhausted, ?attempt, ?connfail⟩
  case exhausted =>
    intro hidle htot
    rcases st with ⟨idle, total⟩
    subst hidle
    simp only [acquire, popIdle, tryReserve]
    rw [if_pos htot]
  case attempt =>
    intro hatt
    rcases st with ⟨idle, total⟩
    rcases idle with _ | ⟨c, rest⟩
    · simp only [acquire, popIdle, tryReserve] at hatt ⊢
      by_cases htot : total ≥ cfg.max_total
      · rw [if_pos htot] at hatt
        simp at hatt
      · exact ⟨by simp, by omega⟩
    · simp [acquire, popIdle] at hatt
  case connfail =>
    intro hidle htot e hconn
    rcases st with ⟨idle, total⟩
    subst hidle
    subst hconn
    simp only [acquire, popIdle, tryReserve]
    rw [if_neg (not_le.mpr htot)]
    simp [releaseSlot]

/-- Witness for claim C9: a pool with `max_total = 1`, one checked-out
connection and an empty idle queue refuses a second acquire without touching
the state, and a failed connect on an empty pool restores `total`. -/
theorem claim_C9_pool_exhausted_witness :
    acquire ⟨8, 1⟩ ⟨[], 1⟩ (.ok 7) = (.error .PoolExhausted, ⟨[], 1⟩, false) ∧
    acquire ⟨8, 1⟩ ⟨[], 0⟩ (.error .Io) = (.error .Io, ⟨[], 0⟩, true) := by
  constructor
  · exact (claim_C9_pool_exhausted ⟨8, 1⟩ ⟨[], 1⟩ (.ok 7)).1 rfl (by decide)
  · exact (claim_C9_pool_exhausted ⟨8, 1⟩ ⟨[], 0⟩ (.error .Io)).2.2 rfl (by decide) .Io rfl

/-! ## Section 5: server-side streaming RESP parser (claim C3)

The server reads commands through `RespParser::parse` (crate `hkv-server`,
module `protocol`), whose source file is not part of the provided sources —
only its caller (src/hkv-server/src/server.rs, `handle_connection`) is.  The
definitions of this section are therefore modelled from the spec. -/

/-- `RespError` of the server protocol module (matched by the dispatcher as
`RespError::Protocol`). -/
inductive RespError where
  | Protocol
deriving DecidableEq, Repr

/-- Modelled from the spec: scanning one CRLF-terminated line out of the
receive buffer.  `ok none` means the buffer does not yet hold a full line
(partial input); a LF whose predecessor is not CR is a framing error
(`Protocol`); otherwise the line before the CRLF and the bytes after it. -/
def splitLine : List Nat → Except RespError (Option (List Nat × List Nat))
  | [] => .ok none
  | [b] => if b = 10 then .error .Protocol else .ok none
  | b :: c :: rest =>
    if b = 10 then .error .Protocol
    else if b = 13 ∧ c = 10 then .ok (some ([], rest))
    else (splitLine (c :: rest)).map (Option.map (fun q => (b :: q.1, q.2)))

/-- Modelled from the spec: the integer of a `*`/`$` header line — a signed
64-bit decimal with optional leading `-`, any non-digit a `Protocol` error,
saturating at the `i64` bounds on overflow. -/
def specParseInt : List Nat → Except RespError Int
  | [] => .error .Protocol
  | b :: rest =>
    if b = 45 then
      if rest.isEmpty ∨ rest.any (fun c => ! isDigitByte c) then .error .Protocol
      else .ok (-(min ((decValue rest : Nat) : Int) i64Max))
    else
      if (b :: rest).any (fun c => ! isDigitByte c) then .error .Protocol
      else .ok (min ((decValue (b :: rest) : Nat) : Int) i64Max)

/-- Modelled from the spec: the bulk-argument loop of "parse one inbound
command" — `count` frames `$<len>\r\n<bytes>\r\n`, returning `ok none`
(need more data) whenever the buffer ends before a frame is complete. -/
def parseBulks : Nat → List Nat → Except RespError (Option (List (List Nat) × List Nat))
  | 0, buf => .ok (some ([], buf))
  | count + 1, buf => do
    match ← splitLine buf with
    | none => .ok none
    | some (line, rest) =>
      match line with
      | 36 :: payload => do
        let len ← specParseInt payload
        if len < 0 then .error .Protocol
        else if rest.length < len.toNat + 2 then .ok none
        else
          let data := rest.take len.toNat
          let r2 := rest.drop len.toNat
          if r2.take 2 = [13, 10] then
            (parseBulks count (r2.drop 2)).map (fun o => o.map (fun q => (data :: q.1, q.2)))
          else .error .Protocol
      | _ => .error .Protocol

/-- Modelled from the spec: `RespParser::parse` — parse one inbound command
(`*<n>\r\n` then `n` bulks) from the buffer.  On success the parsed argument
vector and the trailing bytes are returned; on partial input the result is
`ok none` with the buffer returned unconsumed. -/
def parseCommand (buf : List Nat) : Except RespError (Option (List (List Nat)) × List Nat) :=
  match splitLine buf with
  | .error e => .error e
  | .ok none => .ok (none, buf)
  | .ok (some (line, rest)) =>
    match line with
    | 42 :: payload =>
      match specParseInt payload with
      | .error e => .error e
      | .ok n =>
        if n ≤ 0 then .ok (some [], rest)
        else
          match parseBulks n.toNat rest with
          | .error e => .error e
          | .ok none => .ok (none, buf)
          | .ok (some (args, rem)) => .ok (some args, rem)
    | _ => .error .Protocol

/-! ### Prefix-splitting helpers -/

theorem split_prefix_at (p r X Y : List Nat) (h : p ++ r = X ++ Y)
    (hlen : X.length ≤ p.length) :
    p = X ++ p.drop X.length ∧ p.drop X.length ++ r = Y := by
  have htake : p.take X.length = X := by
    have h1 : (p ++ r).take X.length = p.take X.length :=
      List.take_append_of_le_length hlen
    rw [h, List.take_append_of_le_length (le_refl _), List.take_length] at h1
    exact h1.symm
  constructor
  · conv_lhs => rw [← List.take_append_drop X.length p]
    rw [htake]
  · have hd : (p ++ r).drop X.length = (X ++ Y).drop X.length := by rw [h]
    rw [List.drop_append_of_le_length hlen,
      List.drop_append_of_le_length (le_refl _), List.drop_length] at hd
    simpa using hd

theorem mem_of_short_prefix (p r X Y : List Nat) (h : p ++ r = X ++ Y)
    (hlen : p.length ≤ X.length) : ∀ b ∈ p, b ∈ X := by
  intro b hb
  have hp : p = X.take p.length := by
    have h1 : (p ++ r).take p.length = p := List.take_left p r
    rw [h, List.take_append_of_le_length hlen] at h1
    exact h1.symm
  rw [hp] at hb
  exact List.mem_of_mem_take hb

/-! ### Behaviour of `splitLine` -/

theorem splitLine_no_lf (q : List Nat) (h10 : 10 ∉ q) : splitLine q = .ok none := by
  induction q with
  | nil => rfl
  | cons b bs ih =>
    have hb : b ≠ 10 := fun hcon => h10 (by simp [hcon])
    rcases bs with _ | ⟨c, rest⟩
    · show splitLine [b] = _
      rw [splitLine, if_neg hb]
    · have hc : c ≠ 10 := fun hcon => h10 (by simp [hcon])
      show splitLine (b :: c :: rest) = _
      rw [splitLine, if_neg hb, if_neg (by tauto)]
      rw [ih (fun hcon => h10 (List.mem_cons_of_mem _ hcon))]
      rfl

theorem splitLine_crlf (line : List Nat) (h10 : 10 ∉ line) :
    ∀ rest, splitLine (line ++ 13 :: 10 :: rest) = .ok (some (line, rest)) := by
  induction line with
  | nil =>
    intro rest
    show splitLine (13 :: 10 :: rest) = _
    rw [splitLine, if_neg (by norm_num), if_pos ⟨rfl, rfl⟩]
  | cons b bs ih =>
    intro rest
    have hb : b ≠ 10 := fun hcon => h10 (by simp [hcon])
    have hbs10 : 10 ∉ bs := fun hcon => h10 (List.mem_cons_of_mem _ hcon)
    rcases hsplit : bs ++ 13 :: 10 :: rest with _ | ⟨c, rest2⟩
    · exact absurd (congrArg List.length hsplit) (by simp)
    · have hc : c ≠ 10 := by
        intro hcon
        subst hcon
        rcases bs with _ | ⟨b0, bs'⟩
        · simp at hsplit
        · simp at hsplit
          exact hbs10 (by simp [hsplit.1])
      show splitLine (b :: (bs ++ 13 :: 10 :: rest)) = _
      rw [hsplit, splitLine, if_neg hb, if_neg (by tauto), ← hsplit,
        ih hbs10 rest]
      rfl

theorem specParseInt_pushUsize (n : Nat) (hn : n ≤ 2 ^ 63 - 1) :
    specParseInt (pushUsize n) = .ok (n : Int) := by
  rcases hne : pushUsize n with _ | ⟨b, rest⟩
  · exact absurd hne (pushUsize_ne_nil n)
  · have hdig : ∀ c ∈ pushUsize n, 48 ≤ c ∧ c ≤ 57 := pushUsize_digits n
    rw [hne] at hdig
    have hb : 48 ≤ b ∧ b ≤ 57 := hdig b (List.mem_cons_self _ _)
    rw [specParseInt]
    rw [if_neg (by omega)]
    rw [if_neg ?hdigits]
    case hdigits =>
      simp only [List.any_eq_true, not_exists]
      intro c
      rintro ⟨hc, hcd⟩
      have := hdig c hc
      simp only [isDigitByte, Bool.and_eq_true, decide_eq_true_eq] at hcd
      simp at hcd
      omega
    · have hv : decValue (b :: rest) = n := by
        rw [← hne]; exact pushUsize_decValue n
      rw [hv]
      congr 1
      have : ((n : Int)) ≤ i64Max := by
        simp only [i64Max]
        omega
      omega

/-! ### A strict prefix of an encoded command is reported as partial -/

theorem parseBulks_strict (args : List (List Nat)) :
    (∀ a ∈ args, a.length ≤ 2 ^ 63 - 1) →
    ∀ p r, p ++ r = (args.map encodeBulkItem).flatten → r ≠ [] →
    parseBulks args.length p = .ok none := by
  induction args with
  | nil =>
    intro _ p r hpr hr
    simp at hpr
    exact absurd hpr.2 hr
  | cons a as ih =>
    intro ha p r hpr hr
    have haa : a.length ≤ 2 ^ 63 - 1 := ha a (List.mem_cons_self _ _)
    set L : List Nat := 36 :: pushUsize a.length with hLdef
    have h10L : 10 ∉ L := by
      intro hcon
      rcases List.mem_cons.mp hcon with hcon | hcon
      · norm_num at hcon
      · have := pushUsize_digits a.length 10 hcon
        omega
    have hfull : p ++ r =
        (L ++ [13, 10]) ++ (a ++ 13 :: 10 :: (as.map encodeBulkItem).flatten) := by
      rw [hpr]
      simp [encodeBulkItem, hLdef]
    show parseBulks (as.length + 1) p = _
    by_cases hcase : p.length < L.length + 2
    · -- the header line is not complete yet: no LF can occur in p
      have hmem : ∀ b ∈ p, b ∈ L ++ [13] := by
        refine mem_of_short_prefix p r (L ++ [13]) (10 :: (a ++ 13 :: 10 :: (as.map encodeBulkItem).flatten)) ?_ (by simp; omega)
        rw [hfull]
        simp
      have h10 : 10 ∉ p := by
        intro hcon
        have := hmem 10 hcon
        rcases List.mem_append.mp this with h | h
        · exact h10L h
        · simp at h
      rw [parseBulks, splitLine_no_lf p h10]
      rfl
    · -- the header line is complete
      push_neg at hcase
      have hsplit := split_prefix_at p r (L ++ [13, 10])
        (a ++ 13 :: 10 :: (as.map encodeBulkItem).flatten) hfull (by simp; omega)
      set q := p.drop (L ++ [13, 10]).length with hqdef
      obtain ⟨hp, hq⟩ := hsplit
      have hpq : p = L ++ 13 :: 10 :: q := by
        rw [hp]; simp
      rw [parseBulks, hpq, splitLine_crlf L h10L q]
      show (do
        let len ← specParseInt (pushUsize a.length)
        if len < 0 then Except.error RespError.Protocol
        else if q.length < len.toNat + 2 then
          (Except.ok none : Except RespError (Option (List (List Nat) × List Nat)))
        else
          if (q.drop len.toNat).take 2 = [13, 10] then
            (parseBulks as.length ((q.drop len.toNat).drop 2)).map
              (fun o => o.map (fun z => (q.take len.toNat :: z.1, z.2)))
          else Except.error RespError.Protocol) = Except.ok none
      rw [specParseInt_pushUsize a.length haa]
      show (if ((a.length : Nat) : Int) < 0 then Except.error RespError.Protocol
        else if q.length < ((a.length : Nat) : Int).toNat + 2 then
          (Except.ok none : Except RespError (Option (List (List Nat) × List Nat)))
        else
          if (q.drop ((a.length : Nat) : Int).toNat).take 2 = [13, 10] then
            (parseBulks as.length ((q.drop ((a.length : Nat) : Int).toNat).drop 2)).map
              (fun o => o.map (fun z => (q.take ((a.length : Nat) : Int).toNat :: z.1, z.2)))
          else Except.error RespError.Protocol) = Except.ok none
      rw [if_neg (by omega), show (((a.length : Nat) : Int)).toNat = a.length by simp]
      by_cases hql : q.length < a.length + 2
      · rw [if_pos hql]
      · push_neg at hql
        rw [if_neg (by omega)]
        have hqsplit := split_prefix_at q r a
          (13 :: 10 :: (as.map encodeBulkItem).flatten) hq (by omega)
        obtain ⟨hq1, hq2⟩ := hqsplit
        have htake : q.take a.length = a := by
          conv_lhs => rw [hq1]
          rw [List.take_append_of_le_length (le_refl _), List.take_length]
        have hq2split := split_prefix_at (q.drop a.length) r [13, 10]
          ((as.map encodeBulkItem).flatten) hq2 (by simp; omega)
        obtain ⟨hq21, hq22⟩ := hq2split
        have htake2 : (q.drop a.length).take 2 = [13, 10] := by
          conv_lhs => rw [hq21]
          rfl
        have hdrop2 : (q.drop a.length).drop 2 = (q.drop a.length).drop ([13, 10] : List Nat).length := rfl
        rw [htake, htake2, if_pos rfl]
        rw [ih (fun x hx => ha x (List.mem_cons_of_mem _ hx)) ((q.drop a.length).drop 2) r (by rw [hdrop2]; exact hq22) hr]
        rfl

theorem parseCommand_strict (args : List (List Nat)) (hn : args.length ≤ 2 ^ 63 - 1)
    (ha : ∀ a ∈ args, a.length ≤ 2 ^ 63 - 1) :
    ∀ p r, p ++ r = encodeCommand args → r ≠ [] → parseCommand p = .ok (none, p) := by
  intro p r hpr hr
  set L : List Nat := 42 :: pushUsize args.length with hLdef
  have h10L : 10 ∉ L := by
    intro hcon
    rcases List.mem_cons.mp hcon with hcon | hcon
    · norm_num at hcon
    · have := pushUsize_digits args.length 10 hcon
      omega
  have hfull : p ++ r = (L ++ [13, 10]) ++ (args.map encodeBulkItem).flatten := by
    rw [hpr]
    simp [encodeCommand, hLdef]
  by_cases hcase : p.length < L.length + 2
  · have hmem : ∀ b ∈ p, b ∈ L ++ [13] := by
      refine mem_of_short_prefix p r (L ++ [13])
        (10 :: (args.map encodeBulkItem).flatten) ?_ (by simp; omega)
      rw [hfull]
      simp
    have h10 : 10 ∉ p := by
      intro hcon
      have := hmem 10 hcon
      rcases List.mem_append.mp this with h | h
      · exact h10L h
      · simp at h
    rw [parseCommand, splitLine_no_lf p h10]
  · push_neg at hcase
    have hsplit := split_prefix_at p r (L ++ [13, 10])
      ((args.map encodeBulkItem).flatten) hfull (by simp; omega)
    set q := p.drop (L ++ [13, 10]).length with hqdef
    obtain ⟨hp, hq⟩ := hsplit
    have hpq : p = L ++ 13 :: 10 :: q := by
      rw [hp]; simp
    have hargs : args ≠ [] := by
      intro hcon
      subst hcon
      simp at hq
      exact hr hq.2
    have hlen0 : args.length ≠ 0 := fun hcon => hargs (List.length_eq_zero.mp hcon)
    rw [hpq, parseCommand, splitLine_crlf L h10L q, hLdef]
    show (match specParseInt (pushUsize args.length) with
      | Except.error e => (Except.error e : Except RespError (Option (List (List Nat)) × List Nat))
      | Except.ok n =>
        if n ≤ 0 then Except.ok (some ([] : List (List Nat)), q)
        else
          match parseBulks n.toNat q with
          | Except.error e => Except.error e
          | Except.ok none => Except.ok (none, (42 :: pushUsize args.length) ++ 13 :: 10 :: q)
          | Except.ok (some (args2, rem)) => Except.ok (some args2, rem)) =
      Except.ok (none, (42 :: pushUsize args.length) ++ 13 :: 10 :: q)
    rw [specParseInt_pushUsize args.length hn]
    show (if ((args.length : Nat) : Int) ≤ 0 then
        (Except.ok (some ([] : List (List Nat)), q) :
          Except RespError (Option (List (List Nat)) × List Nat))
      else
        match parseBulks ((args.length : Nat) : Int).toNat q with
        | Except.error e => Except.error e
        | Except.ok none => Except.ok (none, (42 :: pushUsize args.length) ++ 13 :: 10 :: q)
        | Except.ok (some (args2, rem)) => Except.ok (some args2, rem)) =
      Except.ok (none, (42 :: pushUsize args.length) ++ 13 :: 10 :: q)
    rw [if_neg (by omega), show (((args.length : Nat) : Int)).toNat = args.length by simp,
      parseBulks_strict args ha q r hq hr]

/-- Claim C3 (spec-modelled): the server-side streaming RESP parser, fed any
strict prefix of the encoding `E(args)` of a command, reports `Ok(None)`
(need more data) rather than an error, and returns the buffer unconsumed so
the caller can retry once more bytes arrive.  The length bounds reflect that
Rust slice lengths never exceed `isize::MAX = 2^63 - 1`. -/
theorem claim_C3_partial_input (args : List (List Nat)) (p r : List Nat)
    (henc : p ++ r = encodeCommand args) (hr : r ≠ [])
    (hn : args.length ≤ 2 ^ 63 - 1) (ha : ∀ a ∈ args, a.length ≤ 2 ^ 63 - 1) :
    parseCommand p = .ok (none, p) :=
  parseCommand_strict args hn ha p r henc hr

/-- Witness for claim C3: the first two bytes of the encoding of `["PING"]`
leave the streaming parser waiting for more data. -/
theorem claim_C3_partial_input_witness :
    parseCommand [42, 49] = .ok (none, [42, 49]) :=
  claim_C3_partial_input [[80, 73, 78, 71]] [42, 49]
    [13, 10, 36, 52, 13, 10, 80, 73, 78, 71, 13, 10]
    (by decide) (by decide) (by decide) (by decide)

/-! ## Section 6: in-memory engine (src/hkv-engine/src/memory.rs)

A shard (`ShardInner`) holds a hash map from key to arena slot plus an
intrusive, index-linked LRU list over the occupied slots.  The embedding
represents a shard as the list of its occupied nodes in LRU order (head =
oldest, last = most recently used); the map lookup is `findNode`, `lru_remove`
plus slot clearing is `eraseNode`, `insert_new`/`lru_push_back` append at the
end, and `pop_lru` takes the head.  The arena index/free-list machinery has
no observable effect beyond this list.  `Instant` is a `Nat` tick supplied to
each operation (the source samples `Instant::now()` once per operation). -/

/-- `HkvError` (hkv-common): only `NotFound` is produced by the engine. -/
inductive HkvError where
  | NotFound
deriving DecidableEq, Repr

/-- `TtlStatus` (src/hkv-engine/src/engine.rs). -/
inductive TtlStatus where
  | Missing
  | NoExpiry
  | ExpiresIn (remaining : Nat)
deriving DecidableEq, Repr

/-- `Node` (src/hkv-engine/src/memory.rs) without the intrusive indices,
which the LRU-ordered list encodes positionally. -/
structure Node where
  key : List Nat
  value : List Nat
  expiresAt : Option Nat
  size : Nat
deriving DecidableEq, Repr

/-- `Node::is_expired`: `now >= deadline`. -/
def Node.isExpiredAt (n : Node) (now : Nat) : Bool :=
  match n.expiresAt with
  | some deadline => decide (deadline ≤ now)
  | none => false

/-- Key equality test used by the shard map lookups. -/
def keyIs (key : List Nat) (n : Node) : Bool := n.key == key

/-- Map lookup `map.get(key)` followed by reading the node. -/
def findNode (s : List Node) (key : List Nat) : Option Node := s.find? (keyIs key)

/-- `remove_idx` on the slot holding `key`: unlink from the LRU list, clear
the slot, remove the map entry. -/
def eraseNode (s : List Node) (key : List Nat) : List Node := s.eraseP (keyIs key)

/-- In-place update of the node holding `key` (position in the LRU list
unchanged), as done by `expire`. -/
def modifyNode (key : List Nat) (f : Node → Node) : List Node → List Node
  | [] => []
  | n :: rest => if keyIs key n then f n :: rest else n :: modifyNode key f rest

/-- `MemoryEngine` (src/hkv-engine/src/memory.rs).  The seeded hasher is a
parameter of every operation (an arbitrary function of the key models every
`ahash::RandomState` seed). -/
structure Engine where
  shards : List (List Node)
  shardMask : Nat
  maxBytes : Nat
  usedBytes : Nat
  evictionCursor : Nat
deriving DecidableEq, Repr

/-- `usize::MAX`, the sentinel for an unbounded capacity. -/
def usizeMax : Nat := 2 ^ 64 - 1

/-- `shard_index`: hash the key and mask with `shard_count - 1`. -/
def shardIndex (hash : List Nat → Nat) (e : Engine) (key : List Nat) : Nat :=
  hash key &&& e.shardMask

/-- Read a shard by index. -/
def getShard (e : Engine) (i : Nat) : List Node := e.shards.getD i []

/-- Write back a shard by index. -/
def setShard (e : Engine) (i : Nat) (s : List Node) : Engine :=
  { e with shards := e.shards.set i s }

/-- Total number of occupied slots across all shards. -/
def totalNodes (e : Engine) : Nat := (e.shards.map List.length).sum

/-- `entry_size`: key length plus value length. -/
def entrySize (keyLen valueLen : Nat) : Nat := keyLen + valueLen

/-- The shard scan of `evict_if_needed`: visit `(start + offset) & mask` for
`offset = 0 .. remaining`, returning the first index whose shard can pop an
LRU entry (i.e. is non-empty). -/
def scanShards (e : Engine) (start : Nat) : Nat → Nat → Option Nat
  | _, 0 => none
  | offset, remaining + 1 =>
    let idx := (start + offset) &&& e.shardMask
    if (getShard e idx).isEmpty then scanShards e start (offset + 1) remaining
    else some idx

/-- The `loop` of `evict_if_needed`: while `used_bytes > max_bytes`, bump the
round-robin cursor, evict one LRU entry from the first non-empty shard in
scan order, and stop when a full pass evicts nothing.  The `fuel` argument is
an artifact of the embedding: every iteration that continues removes one
node, so `totalNodes e + 1` iterations always suffice and the `fuel = 0`
fallback is never reached from `evictIfNeeded`. -/
def evictLoop : Nat → Engine → Engine
  | 0, e => e
  | fuel + 1, e =>
    if e.usedBytes ≤ e.maxBytes then e
    else
      match scanShards e e.evictionCursor 0 e.shards.length with
      | none => { e with evictionCursor := e.evictionCursor + 1 }
      | some idx =>
        match getShard e idx with
        | [] => { e with evictionCursor := e.evictionCursor + 1 }
        | n :: restShard =>
          evictLoop fuel
            { e with
              shards := e.shards.set idx restShard
              usedBytes := e.usedBytes - n.size
              evictionCursor := e.evictionCursor + 1 }

/-- `evict_if_needed` (src/hkv-engine/src/memory.rs, lines 406-433). -/
def evictIfNeeded (e : Engine) : Engine :=
  if e.maxBytes = usizeMax then e else evictLoop (totalNodes e + 1) e

/-- `get` (src/hkv-engine/src/memory.rs, lines 449-476): remove an expired
entry on access; otherwise clone the value and move the node to the LRU
tail. -/
def engineGet (hash : List Nat → Nat) (e : Engine) (key : List Nat) (now : Nat) :
    Option (List Nat) × Engine :=
  match findNode (getShard e (shardIndex hash e key)) key with
  | none => (none, e)
  | some node =>
    if node.isExpiredAt now then
      (none,
        { setShard e (shardIndex hash e key)
            (eraseNode (getShard e (shardIndex hash e key)) key) with
          usedBytes := e.usedBytes - node.size })
    else
      (some node.value,
        setShard e (shardIndex hash e key)
          (eraseNode (getShard e (shardIndex hash e key)) key ++ [node]))

/-- The insert-or-replace step of `set`, executed after the expired pre-pass
left the shard as `s1` with `used_bytes` at `used1`: either replace the live
entry in place (reset TTL, move to the LRU tail, adjust `used_bytes` by the
size delta) or insert a fresh node at the tail. -/
def setStage2 (e : Engine) (i : Nat) (s1 : List Node) (used1 : Nat)
    (key value : List Nat) : Engine :=
  match findNode s1 key with
  | some node =>
    { setShard e i (eraseNode s1 key ++
        [{ key := node.key, value := value, expiresAt := none,
           size := entrySize key.length value.length }]) with
      usedBytes :=
        if entrySize key.length value.length > node.size then
          used1 + (entrySize key.length value.length - node.size)
        else used1 - (node.size - entrySize key.length value.length) }
  | none =>
    { setShard e i (s1 ++
        [{ key := key, value := value, expiresAt := none,
           size := entrySize key.length value.length }]) with
      usedBytes := used1 + entrySize key.length value.length }

/-- `set` (src/hkv-engine/src/memory.rs, lines 481-521): drop an expired
entry for the key first (adjusting `used_bytes`), run the insert-or-replace
step on the resulting shard state, then run the eviction driver. -/
def engineSet (hash : List Nat → Nat) (e : Engine) (key value : List Nat) (now : Nat) :
    Engine :=
  evictIfNeeded
    (match findNode (getShard e (shardIndex hash e key)) key with
     | some node =>
       if node.isExpiredAt now then
         setStage2 e (shardIndex hash e key)
           (eraseNode (getShard e (shardIndex hash e key)) key)
           (e.usedBytes - node.size) key value
       else
         setStage2 e (shardIndex hash e key)
           (getShard e (shardIndex hash e key)) e.usedBytes key value
     | none =>
       setStage2 e (shardIndex hash e key)
         (getShard e (shardIndex hash e key)) e.usedBytes key value)

/-- `delete` (src/hkv-engine/src/memory.rs, lines 526-546): observe whether
the entry is expired, remove it unconditionally, return `true` iff it was
not expired. -/
def engineDelete (hash : List Nat → Nat) (e : Engine) (key : List Nat) (now : Nat) :
    Bool × Engine :=
  match findNode (getShard e (shardIndex hash e key)) key with
  | none => (false, e)
  | some node =>
    (! node.isExpiredAt now,
      { setShard e (shardIndex hash e key)
          (eraseNode (getShard e (shardIndex hash e key)) key) with
        usedBytes := e.usedBytes - node.size })

/-- `expire` (src/hkv-engine/src/memory.rs, lines 551-578): missing →
`NotFound`; expired → remove and `NotFound`; otherwise set the deadline to
`now + ttl` in place. -/
def engineExpire (hash : List Nat → Nat) (e : Engine) (key : List Nat) (ttl now : Nat) :
    Except HkvError Unit × Engine :=
  match findNode (getShard e (shardIndex hash e key)) key with
  | none => (.error .NotFound, e)
  | some node =>
    if node.isExpiredAt now then
      (.error .NotFound,
        { setShard e (shardIndex hash e key)
            (eraseNode (getShard e (shardIndex hash e key)) key) with
          usedBytes := e.usedBytes - node.size })
    else
      (.ok (),
        setShard e (shardIndex hash e key)
          (modifyNode key (fun n => { n with expiresAt := some (now + ttl) })
            (getShard e (shardIndex hash e key))))

/-- `ttl` (src/hkv-engine/src/memory.rs, lines 583-618). -/
def engineTtl (hash : List Nat → Nat) (e : Engine) (key : List Nat) (now : Nat) :
    TtlStatus × Engine :=
  match findNode (getShard e (shardIndex hash e key)) key with
  | none => (.Missing, e)
  | some node =>
    if node.isExpiredAt now then
      (.Missing,
        { setShard e (shardIndex hash e key)
            (eraseNode (getShard e (shardIndex hash e key)) key) with
          usedBytes := e.usedBytes - node.size })
    else
      match node.expiresAt with
      | none => (.NoExpiry, e)
      | some deadline =>
        if deadline ≤ now then
          (.Missing,
            { setShard e (shardIndex hash e key)
                (eraseNode (getShard e (shardIndex hash e key)) key) with
              usedBytes := e.usedBytes - node.size })
        else (.ExpiresIn (deadline - now), e)

/-- `purge_expired` (src/hkv-engine/src/memory.rs, lines 332-353): per shard,
remove every expired node (survivors keep their LRU order) and subtract each
removed size from `used_bytes`; returns the removed count. -/
def purgeExpired (e : Engine) (now : Nat) : Nat × Engine :=
  ((e.shards.map (fun s => (s.filter (fun n => n.isExpiredAt now)).length)).sum,
    { e with
      shards := e.shards.map (fun s => s.filter (fun n => ! n.isExpiredAt now))
      usedBytes := e.usedBytes -
        (e.shards.map (fun s => ((s.filter (fun n => n.isExpiredAt now)).map Node.size).sum)).sum })

/-- Doubling loop of `usize::next_power_of_two`, with structural fuel (the
power doubles each step, so fuel `n` always suffices to reach `n`). -/
def nextPow2Go (n : Nat) : Nat → Nat → Nat
  | 0, power => power
  | fuel + 1, power => if n ≤ power then power else nextPow2Go n fuel (power * 2)

/-- `usize::next_power_of_two` for the shard-count normalization. -/
def nextPow2 (n : Nat) : Nat := nextPow2Go n n 1

/-- `normalize_shard_count` (src/hkv-engine/src/memory.rs, lines 624-627). -/
def normalizeShardCount (count : Nat) : Nat := nextPow2 (max count 1)

/-- `MemoryEngine::with_shard_count_and_capacity` (src/hkv-engine/src/memory.rs,
lines 309-327); `with_shard_count`/`new` pass `max_bytes = usize::MAX`. -/
def mkEngine (shards maxB : Nat) : Engine :=
  let shardCount := normalizeShardCount shards
  { shards := List.replicate shardCount []
    shardMask := shardCount - 1
    maxBytes := maxB
    usedBytes := 0
    evictionCursor := 0 }

/-! ### Shard-level association-list lemmas -/

/-- Keys of a shard in LRU order. -/
def shardKeys (s : List Node) : List (List Nat) := s.map Node.key

/-- Byte size held by a shard. -/
def shardSize (s : List Node) : Nat := (s.map Node.size).sum

theorem keyIs_eq_true {key : List Nat} {n : Node} : keyIs key n = true ↔ n.key = key := by
  simp [keyIs]

theorem keyIs_eq_false {key : List Nat} {n : Node} : keyIs key n = false ↔ n.key ≠ key := by
  simp [keyIs]

theorem findNode_eq_none {s : List Node} {key : List Nat} :
    findNode s key = none ↔ ∀ n ∈ s, n.key ≠ key := by
  unfold findNode
  rw [List.find?_eq_none]
  constructor
  · intro h n hn
    exact keyIs_eq_false.mp (Bool.eq_false_iff.mpr (h n hn))
  · intro h n hn
    simp [keyIs, h n hn]

theorem findNode_some_key {s : List Node} {key : List Nat} {n : Node}
    (h : findNode s key = some n) : n.key = key ∧ n ∈ s := by
  unfold findNode at h
  exact ⟨keyIs_eq_true.mp (List.find?_some h), List.mem_of_find?_eq_some h⟩

theorem findNode_eraseNode_ne (s : List Node) (key key' : List Nat) (h : key' ≠ key) :
    findNode (eraseNode s key) key' = findNode s key' := by
  induction s with
  | nil => rfl
  | cons n rest ih =>
    by_cases hn : keyIs key n
    · unfold eraseNode
      rw [List.eraseP_cons_of_pos hn]
      unfold findNode
      rw [List.find?_cons]
      have hfalse : keyIs key' n = false := by
        rw [keyIs_eq_false]
        rw [keyIs_eq_true] at hn
        rw [hn]
        exact fun hc => h hc.symm
      rw [hfalse]
    · unfold eraseNode
      rw [List.eraseP_cons_of_neg hn]
      unfold findNode at ih ⊢
      rw [List.find?_cons, List.find?_cons]
      cases hk : keyIs key' n
      · exact ih
      · rfl

theorem findNode_eraseNode_self (s : List Node) (key : List Nat)
    (hnd : (shardKeys s).Nodup) : findNode (eraseNode s key) key = none := by
  induction s with
  | nil => rfl
  | cons n rest ih =>
    rw [shardKeys, List.map_cons, List.nodup_cons] at hnd
    by_cases hn : keyIs key n
    · unfold eraseNode
      rw [List.eraseP_cons_of_pos hn]
      rw [findNode_eq_none]
      intro x hx hxk
      rw [keyIs_eq_true] at hn
      have hmem : key ∈ List.map Node.key rest := by
        rw [← hxk]
        exact List.mem_map_of_mem Node.key hx
      exact hnd.1 (by rw [hn]; exact hmem)
    · unfold eraseNode
      rw [List.eraseP_cons_of_neg hn]
      unfold findNode
      rw [List.find?_cons, Bool.eq_false_iff.mpr hn]
      exact ih hnd.2

theorem eraseNode_of_none (s : List Node) (key : List Nat)
    (h : findNode s key = none) : eraseNode s key = s := by
  unfold eraseNode
  refine List.eraseP_of_forall_not ?_
  intro x hx
  rw [findNode_eq_none] at h
  simp [keyIs, h x hx]

theorem mem_eraseNode {s : List Node} {key : List Nat} {n : Node}
    (h : n ∈ eraseNode s key) : n ∈ s :=
  (List.eraseP_sublist s).mem h

theorem shardKeys_eraseNode_nodup {s : List Node} {key : List Nat}
    (h : (shardKeys s).Nodup) : (shardKeys (eraseNode s key)).Nodup :=
  ((List.eraseP_sublist s).map Node.key).nodup h

theorem findNode_append (s1 s2 : List Node) (key : List Nat) :
    findNode (s1 ++ s2) key = (findNode s1 key).or (findNode s2 key) := by
  unfold findNode
  rw [List.find?_append]

theorem shardSize_append (s1 s2 : List Node) :
    shardSize (s1 ++ s2) = shardSize s1 + shardSize s2 := by
  simp [shardSize]

theorem shardSize_eraseNode (s : List Node) (key : List Nat) (node : Node)
    (h : findNode s key = some node) :
    shardSize (eraseNode s key) + node.size = shardSize s := by
  induction s with
  | nil => simp [findNode, List.find?] at h
  | cons n rest ih =>
    unfold findNode at h ih
    rw [List.find?_cons] at h
    by_cases hn : keyIs key n
    · rw [hn] at h
      unfold eraseNode
      rw [List.eraseP_cons_of_pos hn]
      cases h
      simp [shardSize]
      omega
    · rw [Bool.eq_false_iff.mpr hn] at h
      unfold eraseNode
      rw [List.eraseP_cons_of_neg hn]
      have := ih h
      unfold eraseNode at this
      simp [shardSize] at this ⊢
      omega

theorem shardSize_eraseNode_le (s : List Node) (key : List Nat) :
    shardSize (eraseNode s key) ≤ shardSize s := by
  cases h : findNode s key with
  | none => rw [eraseNode_of_none s key h]
  | some node =>
    have := shardSize_eraseNode s key node h
    omega

/-! ### `modifyNode` lemmas -/

theorem findNode_modifyNode_ne (s : List Node) (key key' : List Nat) (f : Node → Node)
    (hf : ∀ n, (f n).key = n.key) (h : key' ≠ key) :
    findNode (modifyNode key f s) key' = findNode s key' := by
  induction s with
  | nil => rfl
  | cons n rest ih =>
    rw [modifyNode]
    by_cases hn : keyIs key n
    · rw [if_pos hn]
      unfold findNode
      rw [List.find?_cons, List.find?_cons]
      have h1 : keyIs key' (f n) = false := by
        rw [keyIs_eq_false, hf n]
        rw [keyIs_eq_true] at hn
        rw [hn]
        exact fun hc => h hc.symm
      have h2 : keyIs key' n = false := by
        rw [keyIs_eq_false]
        rw [keyIs_eq_true] at hn
        rw [hn]
        exact fun hc => h hc.symm
      rw [h1, h2]
    · rw [if_neg hn]
      unfold findNode at ih ⊢
      rw [List.find?_cons, List.find?_cons]
      cases hk : keyIs key' n
      · exact ih
      · rfl

theorem findNode_modifyNode_self (s : List Node) (key : List Nat) (f : Node → Node)
    (hf : ∀ n, (f n).key = n.key) :
    findNode (modifyNode key f s) key = (findNode s key).map f := by
  induction s with
  | nil => rfl
  | cons n rest ih =>
    rw [modifyNode]
    by_cases hn : keyIs key n
    · rw [if_pos hn]
      unfold findNode
      rw [List.find?_cons, List.find?_cons]
      have h1 : keyIs key (f n) = true := by
        rw [keyIs_eq_true, hf n]
        exact keyIs_eq_true.mp hn
      rw [h1, hn]
      rfl
    · rw [if_neg hn]
      unfold findNode at ih ⊢
      rw [List.find?_cons, List.find?_cons, Bool.eq_false_iff.mpr hn]
      exact ih

theorem shardKeys_modifyNode (s : List Node) (key : List Nat) (f : Node → Node)
    (hf : ∀ n, (f n).key = n.key) : shardKeys (modifyNode key f s) = shardKeys s := by
  induction s with
  | nil => rfl
  | cons n rest ih =>
    rw [modifyNode]
    by_cases hn : keyIs key n
    · rw [if_pos hn]
      simp [shardKeys, hf n]
    · rw [if_neg hn]
      simp only [shardKeys, List.map_cons]
      rw [shardKeys] at ih
      rw [ih]
      rfl

theorem shardSize_modifyNode (s : List Node) (key : List Nat) (f : Node → Node)
    (hf : ∀ n, (f n).size = n.size) : shardSize (modifyNode key f s) = shardSize s := by
  induction s with
  | nil => rfl
  | cons n rest ih =>
    rw [modifyNode]
    by_cases hn : keyIs key n
    · rw [if_pos hn]
      simp [shardSize, hf n]
    · rw [if_neg hn]
      simp only [shardSize, List.map_cons, List.sum_cons]
      rw [shardSize] at ih
      rw [ih]
      rfl

theorem mem_modifyNode {s : List Node} {key : List Nat} {f : Node → Node} {x : Node}
    (h : x ∈ modifyNode key f s) : x ∈ s ∨ ∃ n ∈ s, x = f n := by
  induction s with
  | nil => simp [modifyNode] at h
  | cons n rest ih =>
    rw [modifyNode] at h
    by_cases hn : keyIs key n
    · rw [if_pos hn] at h
      rcases List.mem_cons.mp h with rfl | h'
      · exact Or.inr ⟨n, List.mem_cons_self _ _, rfl⟩
      · exact Or.inl (List.mem_cons_of_mem _ h')
    · rw [if_neg hn] at h
      rcases List.mem_cons.mp h with rfl | h'
      · exact Or.inl (List.mem_cons_self _ _)
      · rcases ih h' with h2 | ⟨m, hm, he⟩
        · exact Or.inl (List.mem_cons_of_mem _ h2)
        · exact Or.inr ⟨m, List.mem_cons_of_mem _ hm, he⟩

/-! ### Engine-level invariants -/

/-- Well-formedness of shard `i`: pairwise-distinct keys, every node hashed
to this shard by the engine's seeded hasher, and `size` equal to key length
plus value length (spec §3 invariants 1 and the `size` field contract). -/
def ShardWF (hash : List Nat → Nat) (mask i : Nat) (s : List Node) : Prop :=
  (shardKeys s).Nodup ∧
  ∀ n ∈ s, hash n.key &&& mask = i ∧ n.size = n.key.length + n.value.length

/-- Engine well-formedness with the power-of-two shard-count exponent. -/
def EngineWF (hash : List Nat → Nat) (k : Nat) (e : Engine) : Prop :=
  e.shards.length = 2 ^ k ∧
  e.shardMask = 2 ^ k - 1 ∧
  ∀ i, i < e.shards.length → ShardWF hash e.shardMask i (getShard e i)

/-- Accounting invariant: `used_bytes` equals the summed `size` fields. -/
def EngineACC (e : Engine) : Prop :=
  e.usedBytes = (e.shards.map shardSize).sum

theorem getShard_setShard_self (e : Engine) (i : Nat) (s : List Node)
    (h : i < e.shards.length) : getShard (setShard e i s) i = s := by
  unfold getShard setShard
  simp only
  rw [List.getD_eq_getElem?_getD, List.getElem?_set_self h]
  rfl

theorem getShard_setShard_ne (e : Engine) (i j : Nat) (s : List Node)
    (h : i ≠ j) : getShard (setShard e i s) j = getShard e j := by
  unfold getShard setShard
  simp only
  rw [List.getD_eq_getElem?_getD, List.getElem?_set_ne h, ← List.getD_eq_getElem?_getD]

@[simp] theorem setShard_shardMask (e : Engine) (i : Nat) (s : List Node) :
    (setShard e i s).shardMask = e.shardMask := rfl

@[simp] theorem setShard_maxBytes (e : Engine) (i : Nat) (s : List Node) :
    (setShard e i s).maxBytes = e.maxBytes := rfl

@[simp] theorem setShard_usedBytes (e : Engine) (i : Nat) (s : List Node) :
    (setShard e i s).usedBytes = e.usedBytes := rfl

@[simp] theorem setShard_cursor (e : Engine) (i : Nat) (s : List Node) :
    (setShard e i s).evictionCursor = e.evictionCursor := rfl

@[simp] theorem setShard_length (e : Engine) (i : Nat) (s : List Node) :
    (setShard e i s).shards.length = e.shards.length := List.length_set e.shards i s

theorem sum_map_set_general (f : List Node → Nat) (l : List (List Node)) (i : Nat)
    (s : List Node) (h : i < l.length) :
    ((l.set i s).map f).sum + f (l.getD i []) = (l.map f).sum + f s := by
  induction l generalizing i with
  | nil => simp at h
  | cons a rest ih =>
    cases i with
    | zero =>
      simp [List.set]
      omega
    | succ j =>
      have hj : j < rest.length := by simpa using h
      simp only [List.set_cons_succ, List.map_cons, List.sum_cons, List.getD_cons_succ]
      have := ih j hj
      omega

theorem sum_map_set (l : List (List Node)) (i : Nat) (s : List Node) (h : i < l.length) :
    ((l.set i s).map shardSize).sum + shardSize (l.getD i []) =
      (l.map shardSize).sum + shardSize s :=
  sum_map_set_general shardSize l i s h

theorem shardSize_le_total (e : Engine) (i : Nat) (hi : i < e.shards.length)
    (hACC : EngineACC e) : shardSize (getShard e i) ≤ e.usedBytes := by
  rw [hACC]
  have hmem : getShard e i ∈ e.shards := by
    unfold getShard
    rw [List.getD_eq_getElem?_getD, List.getElem?_eq_getElem hi]
    exact List.getElem_mem _
  exact List.single_le_sum (by simp) _ (List.mem_map_of_mem shardSize hmem)

/-- ACC is preserved by writing shard `i` and setting `used_bytes` to any
value balancing the local size change. -/
theorem ACC_setShard (e : Engine) (i : Nat) (s : List Node) (u : Nat)
    (hi : i < e.shards.length) (hACC : EngineACC e)
    (hbal : u + shardSize (getShard e i) = e.usedBytes + shardSize s) :
    EngineACC { setShard e i s with usedBytes := u } := by
  unfold EngineACC at *
  show u = ((e.shards.set i s).map shardSize).sum
  have hsum := sum_map_set e.shards i s hi
  unfold getShard at hbal
  omega

/-- WF is preserved by the same kind of local shard update. -/
theorem WF_setShard (hash : List Nat → Nat) (k : Nat) (e : Engine) (i : Nat)
    (s : List Node) (u : Nat) (hWF : EngineWF hash k e)
    (hs : ShardWF hash e.shardMask i s) :
    EngineWF hash k { setShard e i s with usedBytes := u } := by
  obtain ⟨hlen, hmask, hsh⟩ := hWF
  refine ⟨by simpa using hlen, hmask, ?_⟩
  intro j hj
  simp only [setShard_length] at hj
  show ShardWF hash e.shardMask j (getShard (setShard e i s) j)
  by_cases hij : i = j
  · subst hij
    rw [getShard_setShard_self e i s (by omega)]
    exact hs
  · rw [getShard_setShard_ne e i j s hij]
    exact hsh j hj

/-- The record update used by the non-`setShard` paths keeps WF. -/
theorem WF_usedBytes (hash : List Nat → Nat) (k : Nat) (e : Engine) (u : Nat)
    (hWF : EngineWF hash k e) : EngineWF hash k { e with usedBytes := u } := by
  obtain ⟨hlen, hmask, hsh⟩ := hWF
  exact ⟨hlen, hmask, hsh⟩

theorem WF_cursor (hash : List Nat → Nat) (k : Nat) (e : Engine) (c : Nat)
    (hWF : EngineWF hash k e) : EngineWF hash k { e with evictionCursor := c } := by
  obtain ⟨hlen, hmask, hsh⟩ := hWF
  exact ⟨hlen, hmask, hsh⟩

/-! ### Eviction-driver lemmas -/

theorem scanShards_some_spec (e : Engine) (start : Nat) :
    ∀ count offset idx, scanShards e start offset count = some idx →
      getShard e idx ≠ [] ∧ ∃ o, idx = (start + o) &&& e.shardMask := by
  intro count
  induction count with
  | zero => intro offset idx h; simp [scanShards] at h
  | succ c ih =>
    intro offset idx h
    rw [scanShards] at h
    by_cases hemp : (getShard e ((start + offset) &&& e.shardMask)).isEmpty
    · rw [if_pos hemp] at h
      exact ih (offset + 1) idx h
    · rw [if_neg hemp] at h
      cases h
      refine ⟨?_, offset, rfl⟩
      intro hcon
      rw [hcon] at hemp
      simp at hemp

theorem scanShards_none_spec (e : Engine) (start : Nat) :
    ∀ count offset, scanShards e start offset count = none →
      ∀ d, d < count → getShard e ((start + offset + d) &&& e.shardMask) = [] := by
  intro count
  induction count with
  | zero => intro offset _ d hd; omega
  | succ c ih =>
    intro offset h d hd
    rw [scanShards] at h
    by_cases hemp : (getShard e ((start + offset) &&& e.shardMask)).isEmpty
    · rw [if_pos hemp] at h
      cases d with
      | zero =>
        rw [Nat.add_zero]
        exact List.isEmpty_iff.mp hemp
      | succ d' =>
        have := ih (offset + 1) h d' (by omega)
        have harith : start + (offset + 1) + d' = start + offset + (d' + 1) := by omega
        rw [harith] at this
        exact this
    · rw [if_neg hemp] at h
      cases h

theorem scanShards_none_all_empty (e : Engine) (start k : Nat)
    (hlen : e.shards.length = 2 ^ k) (hmask : e.shardMask = 2 ^ k - 1)
    (h : scanShards e start 0 e.shards.length = none) :
    ∀ j, j < e.shards.length → getShard e j = [] := by
  intro j hj
  have hspec := scanShards_none_spec e start e.shards.length 0 h
  have hm : 0 < 2 ^ k := Nat.pos_pow_of_pos k (by norm_num)
  have hstart := Nat.div_add_mod start (2 ^ k)
  have hr : start % 2 ^ k < 2 ^ k := Nat.mod_lt _ hm
  have hjm : j < 2 ^ k := by omega
  -- choose the offset that lands the round-robin scan exactly on shard j
  rcases le_or_lt (start % 2 ^ k) j with hle | hlt
  · have hd := hspec (j - start % 2 ^ k) (by omega)
    have harith : start + 0 + (j - start % 2 ^ k) = 2 ^ k * (start / 2 ^ k) + j := by omega
    rw [harith, hmask, Nat.and_pow_two_sub_one_eq_mod, Nat.mul_add_mod,
      Nat.mod_eq_of_lt hjm] at hd
    exact hd
  · have hd := hspec (2 ^ k - start % 2 ^ k + j) (by omega)
    have hmul : 2 ^ k * (start / 2 ^ k + 1) = 2 ^ k * (start / 2 ^ k) + 2 ^ k := by ring
    have harith : start + 0 + (2 ^ k - start % 2 ^ k + j) =
        2 ^ k * (start / 2 ^ k + 1) + j := by omega
    rw [harith, hmask, Nat.and_pow_two_sub_one_eq_mod, Nat.mul_add_mod,
      Nat.mod_eq_of_lt hjm] at hd
    exact hd

theorem total_zero_of_all_empty (e : Engine)
    (h : ∀ j, j < e.shards.length → getShard e j = []) :
    (e.shards.map shardSize).sum = 0 := by
  rw [List.sum_eq_zero]
  intro x hx
  rcases List.mem_map.mp hx with ⟨s, hs, rfl⟩
  rcases List.mem_iff_getElem.mp hs with ⟨j, hj, rfl⟩
  have := h j hj
  unfold getShard at this
  rw [List.getD_eq_getElem?_getD, List.getElem?_eq_getElem hj] at this
  simp only [Option.getD_some] at this
  rw [this]
  rfl

/-- The eviction loop never changes the shard mask. -/
theorem evictLoop_shardMask (fuel : Nat) : ∀ e : Engine,
    (evictLoop fuel e).shardMask = e.shardMask := by
  induction fuel with
  | zero => intro e; rfl
  | succ fuel ih =>
    intro e
    rw [evictLoop]
    split
    · rfl
    · split
      · rfl
      · split
        · rfl
        · rw [ih]

/-- The eviction loop never changes the capacity. -/
theorem evictLoop_maxBytes (fuel : Nat) : ∀ e : Engine,
    (evictLoop fuel e).maxBytes = e.maxBytes := by
  induction fuel with
  | zero => intro e; rfl
  | succ fuel ih =>
    intro e
    rw [evictLoop]
    split
    · rfl
    · split
      · rfl
      · split
        · rfl
        · rw [ih]

/-- The eviction loop never changes the number of shards. -/
theorem evictLoop_length (fuel : Nat) : ∀ e : Engine,
    (evictLoop fuel e).shards.length = e.shards.length := by
  induction fuel with
  | zero => intro e; rfl
  | succ fuel ih =>
    intro e
    rw [evictLoop]
    split
    · rfl
    · split
      · rfl
      · split
        · rfl
        · rw [ih]
          exact List.length_set e.shards _ _

/-- One popped LRU head keeps the shard well-formed. -/
theorem ShardWF_tail (hash : List Nat → Nat) (mask i : Nat) (n : Node) (restShard : List Node)
    (h : ShardWF hash mask i (n :: restShard)) : ShardWF hash mask i restShard := by
  obtain ⟨hnd, hmem⟩ := h
  refine ⟨?_, fun x hx => hmem x (List.mem_cons_of_mem _ hx)⟩
  rw [shardKeys, List.map_cons, List.nodup_cons] at hnd
  exact hnd.2

theorem scanShards_idx_lt (e : Engine) (k start idx : Nat)
    (hlen : e.shards.length = 2 ^ k) (hmask : e.shardMask = 2 ^ k - 1)
    (h : scanShards e start 0 e.shards.length = some idx) : idx < e.shards.length := by
  rcases (scanShards_some_spec e start e.shards.length 0 idx h).2 with ⟨o, rfl⟩
  have h1 : (start + o) &&& e.shardMask ≤ e.shardMask := Nat.and_le_right
  have h2 : 0 < 2 ^ k := Nat.pos_pow_of_pos k (by norm_num)
  omega

/-- The eviction loop preserves well-formedness and the byte accounting. -/
theorem evictLoop_preserves (hash : List Nat → Nat) (k fuel : Nat) : ∀ e : Engine,
    EngineWF hash k e → EngineACC e →
    EngineWF hash k (evictLoop fuel e) ∧ EngineACC (evictLoop fuel e) := by
  induction fuel with
  | zero => intro e hWF hACC; exact ⟨hWF, hACC⟩
  | succ fuel ih =>
    intro e hWF hACC
    rw [evictLoop]
    split
    · exact ⟨hWF, hACC⟩
    · split
      · exact ⟨WF_cursor hash k e _ hWF, hACC⟩
      · split
        · exact ⟨WF_cursor hash k e _ hWF, hACC⟩
        · next n restShard hsh =>
          rename_i hle idx0 idx hscan x0
          have hlen := hWF.1
          have hmask := hWF.2.1
          have hidx : idx < e.shards.length := scanShards_idx_lt e k e.evictionCursor idx hlen hmask hscan
          have hshWF : ShardWF hash e.shardMask idx restShard := by
            have := (hWF.2.2 : ∀ i, i < e.shards.length → ShardWF hash e.shardMask i (getShard e i)) idx hidx
            rw [hsh] at this
            exact ShardWF_tail hash e.shardMask idx n restShard this
          have hns : n.size ≤ shardSize (getShard e idx) := by
            rw [hsh]
            simp [shardSize]
          have htot := shardSize_le_total e idx hidx hACC
          have hbal : (e.usedBytes - n.size) + shardSize (getShard e idx) =
              e.usedBytes + shardSize restShard := by
            rw [hsh]
            simp only [shardSize, List.map_cons, List.sum_cons]
            have hsz : shardSize (getShard e idx) = n.size + shardSize restShard := by
              rw [hsh]; simp [shardSize]
            rw [hsz] at htot
            simp only [shardSize] at htot
            omega
          have hWF2 := WF_setShard hash k e idx restShard (e.usedBytes - n.size) hWF hshWF
          have hACC2 := ACC_setShard e idx restShard (e.usedBytes - n.size) hidx hACC hbal
          exact ih _ hWF2 hACC2

/-- With enough fuel (always granted by `evictIfNeeded`) the loop ends below
the byte budget: either the check passes, or a full pass evicts nothing, in
which case every shard is empty and accounting forces `used_bytes = 0`. -/
theorem evictLoop_le (k fuel : Nat) : ∀ e : Engine,
    EngineACC e → e.shards.length = 2 ^ k → e.shardMask = 2 ^ k - 1 →
    totalNodes e < fuel →
    (evictLoop fuel e).usedBytes ≤ e.maxBytes := by
  induction fuel with
  | zero => intro e _ _ _ hfuel; omega
  | succ fuel ih =>
    intro e hACC hlen hmask hfuel
    rw [evictLoop]
    split
    · assumption
    · split
      · next hle hscan =>
        have hempty := scanShards_none_all_empty e e.evictionCursor k hlen hmask hscan
        have hz := total_zero_of_all_empty e hempty
        rw [EngineACC] at hACC
        show e.usedBytes ≤ e.maxBytes
        omega
      · split
        · next =>
          rename_i hle idx0 idx hscan x0 hsh
          have := (scanShards_some_spec e e.evictionCursor e.shards.length 0 idx hscan).1
          exact absurd hsh this
        · next n restShard hsh =>
          rename_i hle idx0 idx hscan x0
          have hidx : idx < e.shards.length := scanShards_idx_lt e k e.evictionCursor idx hlen hmask hscan
          have htot := shardSize_le_total e idx hidx hACC
          have hsz : shardSize (getShard e idx) = n.size + shardSize restShard := by
            rw [hsh]; simp [shardSize]
          have hbal : (e.usedBytes - n.size) + shardSize (getShard e idx) =
              e.usedBytes + shardSize restShard := by omega
          have hACC2 := ACC_setShard e idx restShard (e.usedBytes - n.size) hidx hACC hbal
          have hlen2 : (e.shards.set idx restShard).length = 2 ^ k := by
            rw [List.length_set]; exact hlen
          have htot2 : totalNodes { e with
              shards := e.shards.set idx restShard
              usedBytes := e.usedBytes - n.size
              evictionCursor := e.evictionCursor + 1 } < fuel := by
            have hsum := sum_map_set_general List.length e.shards idx restShard hidx
            have hgd : e.shards.getD idx [] = n :: restShard := hsh
            rw [hgd] at hsum
            simp only [List.length_cons] at hsum
            unfold totalNodes at hfuel ⊢
            simp only
            omega
          have := ih { e with
              shards := e.shards.set idx restShard
              usedBytes := e.usedBytes - n.size
              evictionCursor := e.evictionCursor + 1 } hACC2 hlen2 hmask htot2
          exact this

theorem evictIfNeeded_preserves (hash : List Nat → Nat) (k : Nat) (e : Engine)
    (hWF : EngineWF hash k e) (hACC : EngineACC e) :
    EngineWF hash k (evictIfNeeded e) ∧ EngineACC (evictIfNeeded e) := by
  unfold evictIfNeeded
  split
  · exact ⟨hWF, hACC⟩
  · exact evictLoop_preserves hash k (totalNodes e + 1) e hWF hACC

theorem shardIndex_lt (hash : List Nat → Nat) (k : Nat) (e : Engine) (key : List Nat)
    (hWF : EngineWF hash k e) : shardIndex hash e key < e.shards.length := by
  have h1 : shardIndex hash e key ≤ e.shardMask := Nat.and_le_right
  have h2 : 0 < 2 ^ k := Nat.pos_pow_of_pos k (by norm_num)
  have hmask := hWF.2.1
  have hlen := hWF.1
  omega

theorem ShardWF_eraseNode (hash : List Nat → Nat) (mask i : Nat) (s : List Node)
    (key : List Nat) (h : ShardWF hash mask i s) :
    ShardWF hash mask i (eraseNode s key) := by
  obtain ⟨hnd, hmem⟩ := h
  exact ⟨shardKeys_eraseNode_nodup hnd, fun x hx => hmem x (mem_eraseNode hx)⟩

theorem key_not_mem_eraseNode (s : List Node) (key : List Nat)
    (hnd : (shardKeys s).Nodup) : key ∉ shardKeys (eraseNode s key) := by
  intro hcon
  rcases List.mem_map.mp hcon with ⟨x, hx, hxk⟩
  have := findNode_eraseNode_self s key hnd
  rw [findNode_eq_none] at this
  exact this x hx hxk

theorem ShardWF_erase_append (hash : List Nat → Nat) (mask i : Nat) (s : List Node)
    (key : List Nat) (node2 : Node) (h : ShardWF hash mask i s)
    (hkey : node2.key = key) (hhash : hash key &&& mask = i)
    (hsize : node2.size = node2.key.length + node2.value.length) :
    ShardWF hash mask i (eraseNode s key ++ [node2]) := by
  obtain ⟨hnd, hmem⟩ := h
  constructor
  · rw [shardKeys, List.map_append]
    have h1 : (shardKeys (eraseNode s key)).Nodup := shardKeys_eraseNode_nodup hnd
    have h2 : key ∉ shardKeys (eraseNode s key) := key_not_mem_eraseNode s key hnd
    rw [shardKeys] at h1 h2
    refine List.nodup_append.mpr ⟨h1, List.nodup_singleton _, ?_⟩
    intro a ha hcon
    have ha2 : a = node2.key := by simpa using hcon
    rw [ha2, hkey] at ha
    exact h2 ha
  · intro x hx
    rcases List.mem_append.mp hx with hx | hx
    · exact hmem x (mem_eraseNode hx)
    · simp at hx
      subst hx
      exact ⟨by rw [hkey]; exact hhash, hsize⟩

/-- The shared shape of every access-time removal: write back the shard with
the keyed node erased and subtract its size. -/
theorem remove_shape_preserves (hash : List Nat → Nat) (k : Nat) (e : Engine)
    (key : List Nat) (node : Node) (hWF : EngineWF hash k e) (hACC : EngineACC e)
    (hfind : findNode (getShard e (shardIndex hash e key)) key = some node) :
    EngineWF hash k
      { setShard e (shardIndex hash e key) (eraseNode (getShard e (shardIndex hash e key)) key) with
        usedBytes := e.usedBytes - node.size } ∧
    EngineACC
      { setShard e (shardIndex hash e key) (eraseNode (getShard e (shardIndex hash e key)) key) with
        usedBytes := e.usedBytes - node.size } := by
  have hi := shardIndex_lt hash k e key hWF
  have hsWF := hWF.2.2 (shardIndex hash e key) hi
  constructor
  · exact WF_setShard hash k e _ _ _ hWF (ShardWF_eraseNode hash e.shardMask _ _ key hsWF)
  · refine ACC_setShard e _ _ _ hi hACC ?_
    have herase := shardSize_eraseNode (getShard e (shardIndex hash e key)) key node hfind
    have htot := shardSize_le_total e (shardIndex hash e key) hi hACC
    omega

theorem engineGet_preserves (hash : List Nat → Nat) (k : Nat) (e : Engine)
    (key : List Nat) (now : Nat) (hWF : EngineWF hash k e) (hACC : EngineACC e) :
    EngineWF hash k (engineGet hash e key now).2 ∧ EngineACC (engineGet hash e key now).2 := by
  unfold engineGet
  rcases hfind : findNode (getShard e (shardIndex hash e key)) key with _ | node
  · exact ⟨hWF, hACC⟩
  · simp only []
    by_cases hexp : node.isExpiredAt now
    · rw [if_pos hexp]
      exact remove_shape_preserves hash k e key node hWF hACC hfind
    · rw [if_neg hexp]
      have hi := shardIndex_lt hash k e key hWF
      have hsWF := hWF.2.2 (shardIndex hash e key) hi
      have hkeymem := findNode_some_key hfind
      constructor
      · refine WF_setShard hash k e _ _ _ hWF ?_
        · refine ShardWF_erase_append hash e.shardMask _ _ key node hsWF hkeymem.1 ?_
            ((hsWF.2 node hkeymem.2).2)
          have h := (hsWF.2 node hkeymem.2).1
          rw [hkeymem.1] at h
          exact h
      · show EngineACC { setShard e (shardIndex hash e key)
          (eraseNode (getShard e (shardIndex hash e key)) key ++ [node]) with
          usedBytes := e.usedBytes }
        refine ACC_setShard e _ _ _ hi hACC ?_
        have herase := shardSize_eraseNode (getShard e (shardIndex hash e key)) key node hfind
        rw [shardSize_append]
        simp only [shardSize, List.map_cons, List.sum_cons, List.map_nil,
          List.sum_nil] at herase ⊢
        omega

theorem engineDelete_preserves (hash : List Nat → Nat) (k : Nat) (e : Engine)
    (key : List Nat) (now : Nat) (hWF : EngineWF hash k e) (hACC : EngineACC e) :
    EngineWF hash k (engineDelete hash e key now).2 ∧
    EngineACC (engineDelete hash e key now).2 := by
  unfold engineDelete
  rcases hfind : findNode (getShard e (shardIndex hash e key)) key with _ | node
  · exact ⟨hWF, hACC⟩
  · simp only []
    exact remove_shape_preserves hash k e key node hWF hACC hfind

theorem engineTtl_preserves (hash : List Nat → Nat) (k : Nat) (e : Engine)
    (key : List Nat) (now : Nat) (hWF : EngineWF hash k e) (hACC : EngineACC e) :
    EngineWF hash k (engineTtl hash e key now).2 ∧
    EngineACC (engineTtl hash e key now).2 := by
  unfold engineTtl
  rcases hfind : findNode (getShard e (shardIndex hash e key)) key with _ | node
  · exact ⟨hWF, hACC⟩
  · simp only []
    by_cases hexp : node.isExpiredAt now
    · rw [if_pos hexp]
      exact remove_shape_preserves hash k e key node hWF hACC hfind
    · rw [if_neg hexp]
      rcases hdl : node.expiresAt with _ | deadline
      · exact ⟨hWF, hACC⟩
      · simp only []
        by_cases hle : deadline ≤ now
        · rw [if_pos hle]
          exact remove_shape_preserves hash k e key node hWF hACC hfind
        · rw [if_neg hle]
          exact ⟨hWF, hACC⟩

theorem engineExpire_preserves (hash : List Nat → Nat) (k : Nat) (e : Engine)
    (key : List Nat) (ttl now : Nat) (hWF : EngineWF hash k e) (hACC : EngineACC e) :
    EngineWF hash k (engineExpire hash e key ttl now).2 ∧
    EngineACC (engineExpire hash e key ttl now).2 := by
  unfold engineExpire
  rcases hfind : findNode (getShard e (shardIndex hash e key)) key with _ | node
  · exact ⟨hWF, hACC⟩
  · simp only []
    by_cases hexp : node.isExpiredAt now
    · rw [if_pos hexp]
      exact remove_shape_preserves hash k e key node hWF hACC hfind
    · rw [if_neg hexp]
      have hi := shardIndex_lt hash k e key hWF
      have hsWF := hWF.2.2 (shardIndex hash e key) hi
      have hkeep : ∀ n : Node, ({ n with expiresAt := some (now + ttl) } : Node).key = n.key :=
        fun n => rfl
      have hkeeps : ∀ n : Node, ({ n with expiresAt := some (now + ttl) } : Node).size = n.size :=
        fun n => rfl
      constructor
      · refine WF_setShard hash k e _ _ _ hWF ?_
        obtain ⟨hnd, hmem⟩ := hsWF
        constructor
        · rw [show shardKeys (modifyNode key (fun n => { n with expiresAt := some (now + ttl) })
              (getShard e (shardIndex hash e key))) =
              shardKeys (getShard e (shardIndex hash e key)) from
            shardKeys_modifyNode _ _ _ hkeep]
          exact hnd
        · intro x hx
          rcases mem_modifyNode hx with hx2 | ⟨m, hm, rfl⟩
          · exact hmem x hx2
          · have := hmem m hm
            exact ⟨this.1, this.2⟩
      · show EngineACC { setShard e (shardIndex hash e key)
          (modifyNode key (fun n => { n with expiresAt := some (now + ttl) })
            (getShard e (shardIndex hash e key))) with
          usedBytes := e.usedBytes }
        refine ACC_setShard e _ _ _ hi hACC ?_
        rw [shardSize_modifyNode _ _ _ hkeeps]

theorem node_size_le_shardSize (s : List Node) (key : List Nat) (node : Node)
    (h : findNode s key = some node) : node.size ≤ shardSize s := by
  have := shardSize_eraseNode s key node h
  omega

theorem setStage2_preserves (hash : List Nat → Nat) (k : Nat) (e : Engine)
    (key value : List Nat) (s1 : List Node) (used1 : Nat)
    (hWF : EngineWF hash k e) (hACC : EngineACC e)
    (hs1 : ShardWF hash e.shardMask (shardIndex hash e key) s1)
    (hbal : used1 + shardSize (getShard e (shardIndex hash e key)) =
      e.usedBytes + shardSize s1) :
    EngineWF hash k (setStage2 e (shardIndex hash e key) s1 used1 key value) ∧
    EngineACC (setStage2 e (shardIndex hash e key) s1 used1 key value) := by
  have hi := shardIndex_lt hash k e key hWF
  have htot := shardSize_le_total e (shardIndex hash e key) hi hACC
  unfold setStage2
  rcases hfind : findNode s1 key with _ | node
  · -- fresh insert at the LRU tail
    simp only []
    have hkeyout : key ∉ shardKeys s1 := by
      intro hcon
      rcases List.mem_map.mp hcon with ⟨x, hx, hxk⟩
      rw [findNode_eq_none] at hfind
      exact hfind x hx hxk
    constructor
    · refine WF_setShard hash k e _ _ _ hWF ?_
      obtain ⟨hnd, hmem⟩ := hs1
      constructor
      · rw [shardKeys, List.map_append]
        refine List.nodup_append.mpr ⟨hnd, List.nodup_singleton _, ?_⟩
        intro a ha hcon
        have ha2 : a = key := by simpa using hcon
        rw [ha2] at ha
        exact hkeyout ha
      · intro x hx
        rcases List.mem_append.mp hx with hx | hx
        · exact hmem x hx
        · simp at hx
          subst hx
          exact ⟨rfl, rfl⟩
    · refine ACC_setShard e _ _ _ hi hACC ?_
      rw [shardSize_append]
      simp only [shardSize, List.map_cons, List.sum_cons, List.map_nil, List.sum_nil]
      simp only [shardSize] at hbal
      simp only [entrySize]
      omega
  · -- replace the live entry in place, then touch
    simp only []
    have hkey := (findNode_some_key hfind).1
    have hszle := node_size_le_shardSize s1 key node hfind
    have herase := shardSize_eraseNode s1 key node hfind
    constructor
    · refine WF_setShard hash k e _ _ _ hWF ?_
      refine ShardWF_erase_append hash e.shardMask _ _ key
        { key := node.key, value := value, expiresAt := none,
          size := entrySize key.length value.length } hs1 hkey rfl ?_
      simp only [entrySize, hkey]
    · refine ACC_setShard e _ _ _ hi hACC ?_
      rw [shardSize_append]
      simp only [shardSize, List.map_cons, List.sum_cons, List.map_nil, List.sum_nil]
      simp only [shardSize] at hbal herase htot hszle
      simp only [entrySize]
      by_cases hgt : key.length + value.length > node.size
      · rw [if_pos hgt]
        omega
      · rw [if_neg hgt]
        omega

theorem engineSet_preserves (hash : List Nat → Nat) (k : Nat) (e : Engine)
    (key value : List Nat) (now : Nat) (hWF : EngineWF hash k e) (hACC : EngineACC e) :
    EngineWF hash k (engineSet hash e key value now) ∧
    EngineACC (engineSet hash e key value now) := by
  have hi := shardIndex_lt hash k e key hWF
  have hsWF := hWF.2.2 (shardIndex hash e key) hi
  unfold engineSet
  rcases hfind : findNode (getShard e (shardIndex hash e key)) key with _ | node
  · have := setStage2_preserves hash k e key value _ e.usedBytes hWF hACC hsWF (by omega)
    exact evictIfNeeded_preserves hash k _ this.1 this.2
  · simp only []
    by_cases hexp : node.isExpiredAt now
    · rw [if_pos hexp]
      have herase := shardSize_eraseNode (getShard e (shardIndex hash e key)) key node hfind
      have htot := shardSize_le_total e (shardIndex hash e key) hi hACC
      have hszle := node_size_le_shardSize _ key node hfind
      have hstage := setStage2_preserves hash k e key value
        (eraseNode (getShard e (shardIndex hash e key)) key) (e.usedBytes - node.size)
        hWF hACC (ShardWF_eraseNode hash e.shardMask _ _ key hsWF) (by omega)
      exact evictIfNeeded_preserves hash k _ hstage.1 hstage.2
    · rw [if_neg hexp]
      have hstage := setStage2_preserves hash k e key value _ e.usedBytes hWF hACC hsWF (by omega)
      exact evictIfNeeded_preserves hash k _ hstage.1 hstage.2

theorem shardSize_filter_split (p : Node → Bool) (s : List Node) :
    shardSize (s.filter p) + shardSize (s.filter (fun n => ! p n)) = shardSize s := by
  induction s with
  | nil => rfl
  | cons n rest ih =>
    by_cases hp : p n
    · rw [List.filter_cons_of_pos hp, List.filter_cons_of_neg (by simp [hp])]
      simp only [shardSize, List.map_cons, List.sum_cons] at ih ⊢
      omega
    · rw [List.filter_cons_of_neg hp, List.filter_cons_of_pos (by simp [hp])]
      simp only [shardSize, List.map_cons, List.sum_cons] at ih ⊢
      omega

theorem purgeExpired_preserves (hash : List Nat → Nat) (k : Nat) (e : Engine)
    (now : Nat) (hWF : EngineWF hash k e) (hACC : EngineACC e) :
    EngineWF hash k (purgeExpired e now).2 ∧ EngineACC (purgeExpired e now).2 := by
  obtain ⟨hlen, hmask, hsh⟩ := hWF
  have hget : ∀ i, i < e.shards.length →
      getShard (purgeExpired e now).2 i = (getShard e i).filter (fun n => ! n.isExpiredAt now) := by
    intro i hi
    show (e.shards.map (fun s => s.filter (fun n => ! n.isExpiredAt now))).getD i [] = _
    rw [List.getD_eq_getElem?_getD, List.getElem?_map, List.getElem?_eq_getElem hi]
    show ((e.shards.get ⟨i, hi⟩).filter (fun n => ! n.isExpiredAt now)) = _
    unfold getShard
    rw [List.getD_eq_getElem?_getD, List.getElem?_eq_getElem hi]
    rfl
  constructor
  · refine ⟨?_, hmask, ?_⟩
    · show (e.shards.map (fun s => s.filter (fun n => ! n.isExpiredAt now))).length = 2 ^ k
      rw [List.length_map]
      exact hlen
    intro i hi
    have hi0 : i < e.shards.length := by
      have h2 : i < (e.shards.map (fun s => s.filter (fun n => ! n.isExpiredAt now))).length := hi
      simpa using h2
    rw [show (purgeExpired e now).2.shardMask = e.shardMask from rfl, hget i hi0]
    obtain ⟨hnd, hmem⟩ := hsh i hi0
    constructor
    · exact ((List.filter_sublist _).map Node.key).nodup hnd
    · intro x hx
      exact hmem x (List.mem_of_mem_filter hx)
  · show e.usedBytes -
        (e.shards.map
          (fun s => ((s.filter (fun n => n.isExpiredAt now)).map Node.size).sum)).sum =
      ((e.shards.map (fun s => s.filter (fun n => ! n.isExpiredAt now))).map shardSize).sum
    rw [List.map_map]
    have hsplit : ∀ shards : List (List Node),
        ((shards.map (fun s => ((s.filter (fun n => n.isExpiredAt now)).map Node.size).sum)).sum ≤
          (shards.map shardSize).sum) ∧
        ((shards.map (shardSize ∘ fun s => s.filter (fun n => ! n.isExpiredAt now))).sum +
          (shards.map (fun s => ((s.filter (fun n => n.isExpiredAt now)).map Node.size).sum)).sum =
          (shards.map shardSize).sum) := by
      intro shards
      induction shards with
      | nil => exact ⟨le_refl 0, rfl⟩
      | cons s rest ih =>
        have hone := shardSize_filter_split (fun n => n.isExpiredAt now) s
        obtain ⟨ih1, ih2⟩ := ih
        simp only [List.map_cons, List.sum_cons, Function.comp_apply]
        have h1 : ((s.filter (fun n => n.isExpiredAt now)).map Node.size).sum =
            shardSize (s.filter (fun n => n.isExpiredAt now)) := rfl
        constructor
        · omega
        · omega
    have h := hsplit e.shards
    rw [EngineACC] at hACC
    omega

/-! ### Engine construction facts -/

theorem nextPow2Go_pow (n : Nat) : ∀ fuel power, (∃ j, power = 2 ^ j) →
    ∃ j, nextPow2Go n fuel power = 2 ^ j := by
  intro fuel
  induction fuel with
  | zero => intro power h; exact h
  | succ fuel ih =>
    intro power h
    rw [nextPow2Go]
    by_cases hle : n ≤ power
    · rw [if_pos hle]; exact h
    · rw [if_neg hle]
      refine ih (power * 2) ?_
      rcases h with ⟨j, rfl⟩
      exact ⟨j + 1, by ring⟩

theorem normalizeShardCount_pow (count : Nat) :
    ∃ j, normalizeShardCount count = 2 ^ j :=
  nextPow2Go_pow (max count 1) (max count 1) 1 ⟨0, rfl⟩

theorem mkEngine_empty_shards (count maxB : Nat) :
    ∀ i, getShard (mkEngine count maxB) i = [] := by
  intro i
  show (List.replicate (normalizeShardCount count) ([] : List Node)).getD i [] = []
  rw [List.getD_eq_getElem?_getD]
  rcases h : (List.replicate (normalizeShardCount count) ([] : List Node))[i]? with _ | s
  · rfl
  · have := List.getElem?_mem h
    rw [List.eq_of_mem_replicate this]
    rfl

theorem mkEngine_WF (hash : List Nat → Nat) (count maxB : Nat) :
    ∃ k, EngineWF hash k (mkEngine count maxB) ∧ EngineACC (mkEngine count maxB) := by
  rcases normalizeShardCount_pow count with ⟨k, hk⟩
  refine ⟨k, ⟨?_, ?_, ?_⟩, ?_⟩
  · show (List.replicate (normalizeShardCount count) ([] : List Node)).length = 2 ^ k
    rw [List.length_replicate, hk]
  · show normalizeShardCount count - 1 = 2 ^ k - 1
    rw [hk]
  · intro i hi
    rw [mkEngine_empty_shards count maxB i]
    exact ⟨List.nodup_nil, by intro n hn; simp at hn⟩
  · show (0 : Nat) = ((List.replicate (normalizeShardCount count) ([] : List Node)).map shardSize).sum
    rw [List.map_replicate]
    show 0 = (List.replicate (normalizeShardCount count) (shardSize [])).sum
    rw [List.sum_replicate]
    simp [shardSize]

/-! ### Claim C6: `used_bytes` accounting across every engine operation -/

/-- One complete engine operation (spec §4.2); `evictOp` is the eviction
driver on its own, which `setOp` also runs internally. -/
inductive EngineOp where
  | setOp (key value : List Nat)
  | getOp (key : List Nat)
  | delOp (key : List Nat)
  | expireOp (key : List Nat) (ttl : Nat)
  | ttlOp (key : List Nat)
  | purgeOp
  | evictOp
deriving Repr

/-- Apply one operation to the engine (discarding the client-visible
result), sampling the clock at `now`. -/
def applyOp (hash : List Nat → Nat) (op : EngineOp) (now : Nat) (e : Engine) : Engine :=
  match op with
  | .setOp k v => engineSet hash e k v now
  | .getOp k => (engineGet hash e k now).2
  | .delOp k => (engineDelete hash e k now).2
  | .expireOp k d => (engineExpire hash e k d now).2
  | .ttlOp k => (engineTtl hash e k now).2
  | .purgeOp => (purgeExpired e now).2
  | .evictOp => evictIfNeeded e

/-- Total key-plus-value bytes over all occupied slots of all shards. -/
def totalEntryBytes (e : Engine) : Nat :=
  (e.shards.map (fun s => (s.map (fun n => n.key.length + n.value.length)).sum)).sum

theorem shardSize_eq_entryBytes (s : List Node)
    (h : ∀ n ∈ s, n.size = n.key.length + n.value.length) :
    shardSize s = (s.map (fun n => n.key.length + n.value.length)).sum := by
  induction s with
  | nil => rfl
  | cons n rest ih =>
    simp only [shardSize, List.map_cons, List.sum_cons] at ih ⊢
    rw [h n (List.mem_cons_self _ _), ih (fun x hx => h x (List.mem_cons_of_mem _ hx))]

theorem used_eq_totalEntryBytes (hash : List Nat → Nat) (k : Nat) (e : Engine)
    (hWF : EngineWF hash k e) (hACC : EngineACC e) :
    e.usedBytes = totalEntryBytes e := by
  rw [EngineACC] at hACC
  rw [hACC, totalEntryBytes]
  refine congrArg List.sum (List.map_congr_left ?_)
  intro s hs
  rcases List.mem_iff_getElem.mp hs with ⟨i, hi, rfl⟩
  have hsWF := hWF.2.2 i hi
  have hget : getShard e i = e.shards[i] := by
    unfold getShard
    rw [List.getD_eq_getElem?_getD, List.getElem?_eq_getElem hi]
    rfl
  rw [hget] at hsWF
  exact shardSize_eq_entryBytes _ (fun n hn => (hsWF.2 n hn).2)

theorem applyOp_preserves (hash : List Nat → Nat) (k : Nat) (op : EngineOp)
    (now : Nat) (e : Engine) (hWF : EngineWF hash k e) (hACC : EngineACC e) :
    EngineWF hash k (applyOp hash op now e) ∧ EngineACC (applyOp hash op now e) := by
  cases op with
  | setOp key value => exact engineSet_preserves hash k e key value now hWF hACC
  | getOp key => exact engineGet_preserves hash k e key now hWF hACC
  | delOp key => exact engineDelete_preserves hash k e key now hWF hACC
  | expireOp key d => exact engineExpire_preserves hash k e key d now hWF hACC
  | ttlOp key => exact engineTtl_preserves hash k e key now hWF hACC
  | purgeOp => exact purgeExpired_preserves hash k e now hWF hACC
  | evictOp => exact evictIfNeeded_preserves hash k e hWF hACC

/-- Claim C6: after every complete engine operation (set, get, delete,
expire, ttl, purge_expired, eviction), executed sequentially from a
well-formed and correctly-accounted state, `used_bytes` equals the sum of
`size` (= key length + value length) over all occupied slots across all
shards — and the invariants persist, so this holds along any sequential
execution. -/
theorem claim_C6_used_bytes_accounting (hash : List Nat → Nat) (k : Nat) (op : EngineOp)
    (now : Nat) (e : Engine) (hWF : EngineWF hash k e) (hACC : EngineACC e) :
    EngineWF hash k (applyOp hash op now e) ∧ EngineACC (applyOp hash op now e) ∧
    (applyOp hash op now e).usedBytes = totalEntryBytes (applyOp hash op now e) := by
  obtain ⟨hWF2, hACC2⟩ := applyOp_preserves hash k op now e hWF hACC
  exact ⟨hWF2, hACC2, used_eq_totalEntryBytes hash k _ hWF2 hACC2⟩

/-- Witness for claim C6: a concrete `set` on a fresh single-shard engine. -/
theorem claim_C6_used_bytes_accounting_witness :
    EngineWF (fun _ => 0) 0 (applyOp (fun _ => 0) (.setOp [97] [98, 99]) 5 (mkEngine 1 usizeMax)) ∧
    EngineACC (applyOp (fun _ => 0) (.setOp [97] [98, 99]) 5 (mkEngine 1 usizeMax)) ∧
    (applyOp (fun _ => 0) (.setOp [97] [98, 99]) 5 (mkEngine 1 usizeMax)).usedBytes =
      totalEntryBytes (applyOp (fun _ => 0) (.setOp [97] [98, 99]) 5 (mkEngine 1 usizeMax)) :=
  claim_C6_used_bytes_accounting (fun _ => 0) 0 (.setOp [97] [98, 99]) 5 (mkEngine 1 usizeMax)
    (by unfold EngineWF ShardWF; decide) (by unfold EngineACC; decide)

/-! ### Claim C7: `delete` semantics -/

theorem setStage2_maxBytes (e : Engine) (i : Nat) (s1 : List Node) (used1 : Nat)
    (key value : List Nat) :
    (setStage2 e i s1 used1 key value).maxBytes = e.maxBytes := by
  unfold setStage2
  rcases h : findNode s1 key with _ | n <;> rfl

theorem engineDelete_missing (hash : List Nat → Nat) (e : Engine) (key : List Nat)
    (now : Nat) (h : findNode (getShard e (shardIndex hash e key)) key = none) :
    engineDelete hash e key now = (false, e) := by
  unfold engineDelete
  rw [h]

theorem engineDelete_found (hash : List Nat → Nat) (e : Engine) (key : List Nat)
    (now : Nat) (node : Node)
    (h : findNode (getShard e (shardIndex hash e key)) key = some node) :
    engineDelete hash e key now = (! node.isExpiredAt now,
      { setShard e (shardIndex hash e key)
          (eraseNode (getShard e (shardIndex hash e key)) key) with
        usedBytes := e.usedBytes - node.size }) := by
  unfold engineDelete
  rw [h]

theorem engineDelete_erased (hash : List Nat → Nat) (k : Nat) (e : Engine)
    (key : List Nat) (now : Nat) (hWF : EngineWF hash k e) :
    findNode
      (getShard (engineDelete hash e key now).2
        (shardIndex hash (engineDelete hash e key now).2 key)) key = none := by
  have hi := shardIndex_lt hash k e key hWF
  have hnd := (hWF.2.2 (shardIndex hash e key) hi).1
  rcases hf : findNode (getShard e (shardIndex hash e key)) key with _ | node
  · rw [engineDelete_missing hash e key now hf]
    exact hf
  · rw [engineDelete_found hash e key now node hf]
    show findNode
      (getShard (setShard e (shardIndex hash e key)
        (eraseNode (getShard e (shardIndex hash e key)) key)) (shardIndex hash e key))
      key = none
    rw [getShard_setShard_self e _ _ hi]
    exact findNode_eraseNode_self _ _ hnd

theorem engineSet_lookup (hash : List Nat → Nat) (k : Nat) (e : Engine)
    (key value : List Nat) (now : Nat) (hWF : EngineWF hash k e)
    (hmax : e.maxBytes = usizeMax) :
    findNode
      (getShard (engineSet hash e key value now)
        (shardIndex hash (engineSet hash e key value now) key)) key =
    some { key := key, value := value, expiresAt := none,
           size := entrySize key.length value.length } := by
  have hi := shardIndex_lt hash k e key hWF
  have hnd := (hWF.2.2 (shardIndex hash e key) hi).1
  unfold engineSet
  rcases hf : findNode (getShard e (shardIndex hash e key)) key with _ | node
  · simp only []
    have hX : (setStage2 e (shardIndex hash e key) (getShard e (shardIndex hash e key))
        e.usedBytes key value).maxBytes = usizeMax :=
      (setStage2_maxBytes e _ _ e.usedBytes key value).trans hmax
    have hev : evictIfNeeded (setStage2 e (shardIndex hash e key)
        (getShard e (shardIndex hash e key)) e.usedBytes key value) =
        setStage2 e (shardIndex hash e key)
          (getShard e (shardIndex hash e key)) e.usedBytes key value := by
      unfold evictIfNeeded
      rw [if_pos hX]
    rw [hev]
    unfold setStage2
    rw [hf]
    simp only []
    show findNode
      (getShard (setShard e (shardIndex hash e key)
        (getShard e (shardIndex hash e key) ++
          [{ key := key, value := value, expiresAt := none,
             size := entrySize key.length value.length }])) (shardIndex hash e key)) key =
      some { key := key, value := value, expiresAt := none,
             size := entrySize key.length value.length }
    rw [getShard_setShard_self e _ _ hi, findNode_append, hf]
    simp [findNode, keyIs]
  · simp only []
    by_cases hexp : node.isExpiredAt now
    · rw [if_pos hexp]
      have hf2 : findNode (eraseNode (getShard e (shardIndex hash e key)) key) key = none :=
        findNode_eraseNode_self _ _ hnd
      have hX : (setStage2 e (shardIndex hash e key)
          (eraseNode (getShard e (shardIndex hash e key)) key)
          (e.usedBytes - node.size) key value).maxBytes = usizeMax :=
        (setStage2_maxBytes e _ _ _ key value).trans hmax
      have hev : evictIfNeeded (setStage2 e (shardIndex hash e key)
          (eraseNode (getShard e (shardIndex hash e key)) key)
          (e.usedBytes - node.size) key value) =
          setStage2 e (shardIndex hash e key)
            (eraseNode (getShard e (shardIndex hash e key)) key)
            (e.usedBytes - node.size) key value := by
        unfold evictIfNeeded
        rw [if_pos hX]
      rw [hev]
      unfold setStage2
      rw [hf2]
      simp only []
      show findNode
        (getShard (setShard e (shardIndex hash e key)
          (eraseNode (getShard e (shardIndex hash e key)) key ++
            [{ key := key, value := value, expiresAt := none,
               size := entrySize key.length value.length }])) (shardIndex hash e key)) key =
        some { key := key, value := value, expiresAt := none,
               size := entrySize key.length value.length }
      rw [getShard_setShard_self e _ _ hi, findNode_append, hf2]
      simp [findNode, keyIs]
    · rw [if_neg hexp]
      have hX : (setStage2 e (shardIndex hash e key) (getShard e (shardIndex hash e key))
          e.usedBytes key value).maxBytes = usizeMax :=
        (setStage2_maxBytes e _ _ e.usedBytes key value).trans hmax
      have hev : evictIfNeeded (setStage2 e (shardIndex hash e key)
          (getShard e (shardIndex hash e key)) e.usedBytes key value) =
          setStage2 e (shardIndex hash e key)
            (getShard e (shardIndex hash e key)) e.usedBytes key value := by
        unfold evictIfNeeded
        rw [if_pos hX]
      rw [hev]
      unfold setStage2
      rw [hf]
      simp only []
      have hkeq : node.key = key := (findNode_some_key hf).1
      rw [hkeq]
      show findNode
        (getShard (setShard e (shardIndex hash e key)
          (eraseNode (getShard e (shardIndex hash e key)) key ++
            [{ key := key, value := value, expiresAt := none,
               size := entrySize key.length value.length }])) (shardIndex hash e key)) key =
        some { key := key, value := value, expiresAt := none,
               size := entrySize key.length value.length }
      rw [getShard_setShard_self e _ _ hi, findNode_append,
        findNode_eraseNode_self _ _ hnd]
      simp [findNode, keyIs]

/-- Claim C7: `delete` returns `false` when no entry exists for the key and
leaves the engine unchanged; when an entry exists it is always removed and
`delete` returns `true` iff the entry was not expired at the time of the
call; consequently for a live key (here: freshly written by `set` on an
unbounded-capacity engine) the sequence `set(k,v); delete(k); delete(k)`
returns `(true, false)`. -/
theorem claim_C7_delete_semantics (hash : List Nat → Nat) (k : Nat) (e : Engine)
    (key value : List Nat) (now : Nat) (hWF : EngineWF hash k e) (hACC : EngineACC e) :
    (findNode (getShard e (shardIndex hash e key)) key = none →
      engineDelete hash e key now = (false, e)) ∧
    (∀ node, findNode (getShard e (shardIndex hash e key)) key = some node →
      (engineDelete hash e key now).1 = ! node.isExpiredAt now ∧
      findNode
        (getShard (engineDelete hash e key now).2
          (shardIndex hash (engineDelete hash e key now).2 key)) key = none) ∧
    (e.maxBytes = usizeMax →
      (engineDelete hash (engineSet hash e key value now) key now).1 = true ∧
      (engineDelete hash
          (engineDelete hash (engineSet hash e key value now) key now).2 key now).1 =
        false) := by
  refine ⟨fun h => engineDelete_missing hash e key now h, ?_, ?_⟩
  · intro node h
    refine ⟨?_, engineDelete_erased hash k e key now hWF⟩
    rw [engineDelete_found hash e key now node h]
  · intro hmax
    obtain ⟨hWF2, hACC2⟩ := engineSet_preserves hash k e key value now hWF hACC
    have hlook := engineSet_lookup hash k e key value now hWF hmax
    constructor
    · rw [engineDelete_found hash _ key now _ hlook]
      rfl
    · have h3 := engineDelete_erased hash k (engineSet hash e key value now) key now hWF2
      rw [engineDelete_missing hash _ key now h3]

/-- Witness for claim C7: `set("k","v"); delete("k"); delete("k")` on a fresh
single-shard unbounded engine returns `(true, false)`. -/
theorem claim_C7_delete_semantics_witness :
    (engineDelete (fun _ => 0)
        (engineSet (fun _ => 0) (mkEngine 1 usizeMax) [107] [118] 3) [107] 3).1 = true ∧
    (engineDelete (fun _ => 0)
        (engineDelete (fun _ => 0)
          (engineSet (fun _ => 0) (mkEngine 1 usizeMax) [107] [118] 3) [107] 3).2
        [107] 3).1 = false :=
  (claim_C7_delete_semantics (fun _ => 0) 0 (mkEngine 1 usizeMax) [107] [118] 3
    (by unfold EngineWF ShardWF; decide) (by unfold EngineACC; decide)).2.2 rfl

/-! ### Claim C5: capacity `max_bytes = 0` -/

theorem evictIfNeeded_le (k : Nat) (e : Engine) (hACC : EngineACC e)
    (hlen : e.shards.length = 2 ^ k) (hmask : e.shardMask = 2 ^ k - 1)
    (hne : e.maxBytes ≠ usizeMax) :
    (evictIfNeeded e).usedBytes ≤ e.maxBytes := by
  unfold evictIfNeeded
  rw [if_neg hne]
  exact evictLoop_le k (totalNodes e + 1) e hACC hlen hmask (by omega)

theorem engineSet_used_le (hash : List Nat → Nat) (k : Nat) (e : Engine)
    (key value : List Nat) (now : Nat) (hWF : EngineWF hash k e) (hACC : EngineACC e)
    (hne : e.maxBytes ≠ usizeMax) :
    (engineSet hash e key value now).usedBytes ≤ e.maxBytes := by
  have hi := shardIndex_lt hash k e key hWF
  have hsWF := hWF.2.2 (shardIndex hash e key) hi
  unfold engineSet
  rcases hfind : findNode (getShard e (shardIndex hash e key)) key with _ | node
  · have hstage := setStage2_preserves hash k e key value _ e.usedBytes hWF hACC hsWF (by omega)
    have hb := evictIfNeeded_le k _ hstage.2 hstage.1.1 hstage.1.2.1
      (by rw [setStage2_maxBytes]; exact hne)
    rw [setStage2_maxBytes] at hb
    exact hb
  · simp only []
    by_cases hexp : node.isExpiredAt now
    · rw [if_pos hexp]
      have herase := shardSize_eraseNode (getShard e (shardIndex hash e key)) key node hfind
      have htot := shardSize_le_total e (shardIndex hash e key) hi hACC
      have hszle := node_size_le_shardSize _ key node hfind
      have hstage := setStage2_preserves hash k e key value
        (eraseNode (getShard e (shardIndex hash e key)) key) (e.usedBytes - node.size)
        hWF hACC (ShardWF_eraseNode hash e.shardMask _ _ key hsWF) (by omega)
      have hb := evictIfNeeded_le k _ hstage.2 hstage.1.1 hstage.1.2.1
        (by rw [setStage2_maxBytes]; exact hne)
      rw [setStage2_maxBytes] at hb
      exact hb
    · rw [if_neg hexp]
      have hstage := setStage2_preserves hash k e key value _ e.usedBytes hWF hACC hsWF (by omega)
      have hb := evictIfNeeded_le k _ hstage.2 hstage.1.1 hstage.1.2.1
        (by rw [setStage2_maxBytes]; exact hne)
      rw [setStage2_maxBytes] at hb
      exact hb

theorem evictLoop_single (k : Nat) (e : Engine) (i : Nat) (nn : Node)
    (hlen : e.shards.length = 2 ^ k) (hmask : e.shardMask = 2 ^ k - 1)
    (hi : i < e.shards.length) (hshard : getShard e i = [nn])
    (hothers : ∀ j, j < e.shards.length → j ≠ i → getShard e j = [])
    (hused : e.usedBytes = nn.size) (hmax : e.maxBytes = 0) (hpos : 0 < nn.size)
    (htot : totalNodes e = 1) :
    totalNodes (evictLoop (totalNodes e + 1) e) = 0 ∧
    (evictLoop (totalNodes e + 1) e).usedBytes = 0 := by
  rw [htot, evictLoop]
  split
  · next hle => exact absurd hle (by omega)
  · split
    · next hle hscan =>
      have hcontr := scanShards_none_all_empty e e.evictionCursor k hlen hmask hscan i hi
      rw [hshard] at hcontr
      exact absurd hcontr (by simp)
    · split
      · next =>
        rename_i hle idx0 idx hscan x0 hsh
        have := (scanShards_some_spec e e.evictionCursor e.shards.length 0 idx hscan).1
        exact absurd hsh this
      · next n restShard hsh =>
        rename_i hle idx0 idx hscan x0
        have hidx : idx < e.shards.length :=
          scanShards_idx_lt e k e.evictionCursor idx hlen hmask hscan
        have hidxi : idx = i := by
          by_contra hcon
          have hemp := hothers idx hidx hcon
          rw [hemp] at hsh
          cases hsh
        subst hidxi
        rw [hshard] at hsh
        injection hsh with h1 h2
        subst h1
        subst h2
        rw [show (1 : Nat) = 0 + 1 from rfl, evictLoop]
        split
        · next =>
          constructor
          · show ((e.shards.set idx []).map List.length).sum = 0
            have hsum := sum_map_set_general List.length e.shards idx [] hidx
            have hgd : e.shards.getD idx [] = [nn] := hshard
            rw [hgd] at hsum
            have hte : (e.shards.map List.length).sum = 1 := htot
            simp only [List.length_cons, List.length_nil] at hsum
            omega
          · show e.usedBytes - nn.size = 0
            omega
        · next hc =>
          exact absurd (show e.usedBytes - nn.size ≤ e.maxBytes by omega) hc

/-- Claim C5 counterexample: with `max_bytes = 0`, `set("","")` does not
leave the cache empty — the zero-size entry is inserted and the eviction
loop never runs because `used_bytes = 0 ≤ max_bytes` already holds, so one
entry remains in the cache after the call. -/
theorem claim_C5_counterexample :
    totalNodes (engineSet (fun _ => 0) (mkEngine 1 0) [] [] 0) = 1 := by decide

/-- Claim C5 (amended): on a fresh engine with `max_bytes = 0`, a `set`
whose entry size `key_len + value_len` is positive immediately evicts the
entry it just inserted, leaving zero entries and `used_bytes = 0` (a
zero-size entry instead stays, see the counterexample); and after any
`set` on a well-formed, correctly-accounted engine with a finite capacity
(`max_bytes ≠ usize::MAX`), `used_bytes ≤ max_bytes` holds when the call
returns. -/
theorem claim_C5_zero_capacity (hash : List Nat → Nat) (cnt : Nat)
    (key value : List Nat) (now : Nat) (hkv : 0 < key.length + value.length) :
    totalNodes (engineSet hash (mkEngine cnt 0) key value now) = 0 ∧
    (engineSet hash (mkEngine cnt 0) key value now).usedBytes = 0 ∧
    (∀ (k : Nat) (e : Engine), EngineWF hash k e → EngineACC e →
      e.maxBytes ≠ usizeMax →
      (engineSet hash e key value now).usedBytes ≤ e.maxBytes) := by
  have hmain : totalNodes (engineSet hash (mkEngine cnt 0) key value now) = 0 ∧
      (engineSet hash (mkEngine cnt 0) key value now).usedBytes = 0 := by
    rcases mkEngine_WF hash cnt 0 with ⟨k, hWF, hACC⟩
    have hi := shardIndex_lt hash k (mkEngine cnt 0) key hWF
    have hempty := mkEngine_empty_shards cnt 0
    have hf : findNode
        (getShard (mkEngine cnt 0) (shardIndex hash (mkEngine cnt 0) key)) key = none := by
      rw [hempty]
      rfl
    unfold engineSet
    rw [hf]
    simp only []
    unfold evictIfNeeded
    split
    · next hc =>
      rw [setStage2_maxBytes] at hc
      have h0 : (mkEngine cnt 0).maxBytes = 0 := rfl
      rw [h0] at hc
      exact absurd hc (by decide)
    · unfold setStage2
      rw [hf]
      simp only []
      rw [hempty, List.nil_append]
      refine evictLoop_single k _ (shardIndex hash (mkEngine cnt 0) key)
        { key := key, value := value, expiresAt := none,
          size := entrySize key.length value.length } ?_ ?_ ?_ ?_ ?_ ?_ ?_ ?_ ?_
      · show ((mkEngine cnt 0).shards.set (shardIndex hash (mkEngine cnt 0) key)
          [{ key := key, value := value, expiresAt := none,
             size := entrySize key.length value.length }]).length = 2 ^ k
        rw [List.length_set]
        exact hWF.1
      · show (mkEngine cnt 0).shardMask = 2 ^ k - 1
        exact hWF.2.1
      · show shardIndex hash (mkEngine cnt 0) key <
          ((mkEngine cnt 0).shards.set (shardIndex hash (mkEngine cnt 0) key)
            [{ key := key, value := value, expiresAt := none,
               size := entrySize key.length value.length }]).length
        rw [List.length_set]
        exact hi
      · show getShard (setShard (mkEngine cnt 0) (shardIndex hash (mkEngine cnt 0) key)
            [{ key := key, value := value, expiresAt := none,
               size := entrySize key.length value.length }])
          (shardIndex hash (mkEngine cnt 0) key) =
          [{ key := key, value := value, expiresAt := none,
             size := entrySize key.length value.length }]
        exact getShard_setShard_self _ _ _ hi
      · intro j hj hji
        show getShard (setShard (mkEngine cnt 0) (shardIndex hash (mkEngine cnt 0) key)
            [{ key := key, value := value, expiresAt := none,
               size := entrySize key.length value.length }]) j = []
        rw [getShard_setShard_ne _ _ _ _ (fun hc => hji hc.symm)]
        exact hempty j
      · show (mkEngine cnt 0).usedBytes + entrySize key.length value.length =
          entrySize key.length value.length
        have h0 : (mkEngine cnt 0).usedBytes = 0 := rfl
        omega
      · show (mkEngine cnt 0).maxBytes = 0
        rfl
      · show 0 < entrySize key.length value.length
        exact hkv
      · show (((mkEngine cnt 0).shards.set (shardIndex hash (mkEngine cnt 0) key)
          [{ key := key, value := value, expiresAt := none,
             size := entrySize key.length value.length }]).map List.length).sum = 1
        have hsum := sum_map_set_general List.length (mkEngine cnt 0).shards
          (shardIndex hash (mkEngine cnt 0) key)
          [{ key := key, value := value, expiresAt := none,
             size := entrySize key.length value.length }] hi
        have hgd : (mkEngine cnt 0).shards.getD (shardIndex hash (mkEngine cnt 0) key) [] = [] :=
          hempty (shardIndex hash (mkEngine cnt 0) key)
        rw [hgd] at hsum
        have ht0 : ((mkEngine cnt 0).shards.map List.length).sum = 0 := by
          show ((List.replicate (normalizeShardCount cnt) ([] : List Node)).map
            List.length).sum = 0
          rw [List.map_replicate]
          simp
        simp only [List.length_cons, List.length_nil] at hsum
        omega
  refine ⟨hmain.1, hmain.2, ?_⟩
  intro k e hWF hACC hne
  exact engineSet_used_le hash k e key value now hWF hACC hne

/-- Witness for claim C5 (amended): a one-byte key with an empty value on a
fresh single-shard zero-capacity engine leaves an empty cache. -/
theorem claim_C5_zero_capacity_witness :
    totalNodes (engineSet (fun _ => 0) (mkEngine 1 0) [97] [] 0) = 0 ∧
    (engineSet (fun _ => 0) (mkEngine 1 0) [97] [] 0).usedBytes = 0 :=
  ⟨(claim_C5_zero_capacity (fun _ => 0) 1 [97] [] 0 (by decide)).1,
    (claim_C5_zero_capacity (fun _ => 0) 1 [97] [] 0 (by decide)).2.1⟩

/-! ### Claim C4: LRU eviction order on a single shard -/

theorem shardIndex_mask0 (hash : List Nat → Nat) (e : Engine) (key : List Nat)
    (h : e.shardMask = 0) : shardIndex hash e key = 0 := by
  unfold shardIndex
  rw [h, Nat.and_zero]

/-- With a single shard (`shard_mask = 0`) the hashing seed is irrelevant
to `get`: every key maps to shard 0. -/
theorem engineGet_mask0 (hash : List Nat → Nat) (e : Engine) (key : List Nat)
    (now : Nat) (h : e.shardMask = 0) :
    engineGet hash e key now = engineGet (fun _ => 0) e key now := by
  unfold engineGet
  rw [shardIndex_mask0 hash e key h, shardIndex_mask0 (fun _ => 0) e key h]

/-- With a single shard the hashing seed is irrelevant to `set`. -/
theorem engineSet_mask0 (hash : List Nat → Nat) (e : Engine) (key value : List Nat)
    (now : Nat) (h : e.shardMask = 0) :
    engineSet hash e key value now = engineSet (fun _ => 0) e key value now := by
  unfold engineSet
  rw [shardIndex_mask0 hash e key h, shardIndex_mask0 (fun _ => 0) e key h]

/-- Claim C4: on a one-shard engine with `max_bytes = 10`, after
`set("a","1234"); set("b","1234"); get("a"); set("c","1234")` the entry
`"b"` is gone while `"a"` and `"c"` survive: the `get` of `"a"` moved it to
the LRU tail, so the eviction triggered by inserting `"c"` pops `"b"`,
which had become the least-recently-touched entry.  This holds for every
hashing seed, since a single shard makes the shard index constant. -/
theorem claim_C4_lru_eviction (hash : List Nat → Nat) :
    (engineGet hash
        (engineSet hash
          ((engineGet hash
            (engineSet hash
              (engineSet hash (mkEngine 1 10) [97] [49, 50, 51, 52] 0)
              [98] [49, 50, 51, 52] 0)
            [97] 0).2)
          [99] [49, 50, 51, 52] 0)
        [98] 0).1 = none ∧
    (engineGet hash
        (engineSet hash
          ((engineGet hash
            (engineSet hash
              (engineSet hash (mkEngine 1 10) [97] [49, 50, 51, 52] 0)
              [98] [49, 50, 51, 52] 0)
            [97] 0).2)
          [99] [49, 50, 51, 52] 0)
        [97] 0).1 = some [49, 50, 51, 52] ∧
    (engineGet hash
        (engineSet hash
          ((engineGet hash
            (engineSet hash
              (engineSet hash (mkEngine 1 10) [97] [49, 50, 51, 52] 0)
              [98] [49, 50, 51, 52] 0)
            [97] 0).2)
          [99] [49, 50, 51, 52] 0)
        [99] 0).1 = some [49, 50, 51, 52] := by
  have h0 : (mkEngine 1 10).shardMask = 0 := by decide
  rw [engineSet_mask0 hash (mkEngine 1 10) [97] [49, 50, 51, 52] 0 h0]
  have h1 : (engineSet (fun _ => 0) (mkEngine 1 10) [97] [49, 50, 51, 52] 0).shardMask = 0 := by decide
  rw [engineSet_mask0 hash _ [98] [49, 50, 51, 52] 0 h1]
  have h2 : (engineSet (fun _ => 0) (engineSet (fun _ => 0) (mkEngine 1 10) [97] [49, 50, 51, 52] 0) [98] [49, 50, 51, 52] 0).shardMask = 0 := by decide
  rw [engineGet_mask0 hash _ [97] 0 h2]
  have h3 : ((engineGet (fun _ => 0) (engineSet (fun _ => 0) (engineSet (fun _ => 0) (mkEngine 1 10) [97] [49, 50, 51, 52] 0) [98] [49, 50, 51, 52] 0) [97] 0).2).shardMask = 0 := by decide
  rw [engineSet_mask0 hash _ [99] [49, 50, 51, 52] 0 h3]
  have h4 : (engineSet (fun _ => 0) ((engineGet (fun _ => 0) (engineSet (fun _ => 0) (engineSet (fun _ => 0) (mkEngine 1 10) [97] [49, 50, 51, 52] 0) [98] [49, 50, 51, 52] 0) [97] 0).2) [99] [49, 50, 51, 52] 0).shardMask = 0 := by decide
  rw [engineGet_mask0 hash _ [98] 0 h4, engineGet_mask0 hash _ [97] 0 h4,
    engineGet_mask0 hash _ [99] 0 h4]
  decide

/-! ### Claim C1: simulation against the reference dictionary -/

/-- Liveness test on an abstract deadline: dead iff the deadline is at or
before the current time. -/
def isDead (dl : Option Nat) (now : Nat) : Bool :=
  match dl with
  | some t => decide (t ≤ now)
  | none => false

/-- Client-visible view of one engine key: the stored value and deadline. -/
def engineLookup (hash : List Nat → Nat) (e : Engine) (key : List Nat) :
    Option (List Nat × Option Nat) :=
  (findNode (getShard e (shardIndex hash e key)) key).map (fun n => (n.value, n.expiresAt))

/-- Modelled from the spec: the reference dictionary is a flat association
list of key, value and optional deadline (entries reuse `Node` with the
`size` field fixed at 0); this is its lookup view. -/
def refLookup (d : List Node) (key : List Nat) : Option (List Nat × Option Nat) :=
  (findNode d key).map (fun n => (n.value, n.expiresAt))

/-- Modelled from the spec: `set` stores the value and clears any deadline. -/
def refSet (d : List Node) (key value : List Nat) : List Node :=
  eraseNode d key ++ [{ key := key, value := value, expiresAt := none, size := 0 }]

/-- Modelled from the spec: `delete` removes the key. -/
def refDelete (d : List Node) (key : List Nat) : List Node := eraseNode d key

/-- Modelled from the spec: a read that observes an entry whose deadline is
at or before the current time removes it; otherwise `get` returns the
stored value. -/
def refGet (d : List Node) (key : List Nat) (now : Nat) :
    Option (List Nat) × List Node :=
  match findNode d key with
  | none => (none, d)
  | some en =>
    if en.isExpiredAt now then (none, eraseNode d key) else (some en.value, d)

/-- Modelled from the spec: `expire` sets a deadline on a live entry; a
read observing a dead entry removes it instead. -/
def refExpire (d : List Node) (key : List Nat) (ttl now : Nat) : List Node :=
  match findNode d key with
  | none => d
  | some en =>
    if en.isExpiredAt now then eraseNode d key
    else modifyNode key (fun n => { n with expiresAt := some (now + ttl) }) d

/-- One client call of the simulated API. -/
inductive COp where
  | setC (key value : List Nat)
  | delC (key : List Nat)
  | expireC (key : List Nat) (ttl : Nat)
  | getC (key : List Nat)
deriving Repr

/-- Replay a timed call sequence against the engine, collecting each `get`
result in order. -/
def engineRun (hash : List Nat → Nat) : Engine → List (COp × Nat) → List (Option (List Nat))
  | _, [] => []
  | e, (op, now) :: rest =>
    match op with
    | .setC key value => engineRun hash (engineSet hash e key value now) rest
    | .delC key => engineRun hash (engineDelete hash e key now).2 rest
    | .expireC key ttl => engineRun hash (engineExpire hash e key ttl now).2 rest
    | .getC key => (engineGet hash e key now).1 :: engineRun hash (engineGet hash e key now).2 rest

/-- Modelled from the spec: replay the same timed sequence against the
reference dictionary, collecting each `get` result in order. -/
def refRun : List Node → List (COp × Nat) → List (Option (List Nat))
  | _, [] => []
  | d, (op, now) :: rest =>
    match op with
    | .setC key value => refRun (refSet d key value) rest
    | .delC key => refRun (refDelete d key) rest
    | .expireC key ttl => refRun (refExpire d key ttl now) rest
    | .getC key => (refGet d key now).1 :: refRun (refGet d key now).2 rest

theorem engineLookup_update (hash : List Nat → Nat) (e eNew : Engine) (i : Nat)
    (sNew : List Node) (hs : eNew.shards = e.shards.set i sNew)
    (hm : eNew.shardMask = e.shardMask) (hi : i < e.shards.length) (key : List Nat) :
    engineLookup hash eNew key =
      if shardIndex hash e key = i then
        (findNode sNew key).map (fun n => (n.value, n.expiresAt))
      else engineLookup hash e key := by
  unfold engineLookup shardIndex getShard
  rw [hs, hm]
  by_cases hj : hash key &&& e.shardMask = i
  · rw [if_pos hj, hj]
    rw [List.getD_eq_getElem?_getD, List.getElem?_set_self hi]
    rfl
  · rw [if_neg hj]
    rw [List.getD_eq_getElem?_getD, List.getElem?_set_ne (Ne.symm hj),
      ← List.getD_eq_getElem?_getD]

theorem evictIfNeeded_of_max (e : Engine) (h : e.maxBytes = usizeMax) :
    evictIfNeeded e = e := by
  unfold evictIfNeeded
  rw [if_pos h]

theorem evictIfNeeded_maxBytes (e : Engine) :
    (evictIfNeeded e).maxBytes = e.maxBytes := by
  unfold evictIfNeeded
  split
  · rfl
  · exact evictLoop_maxBytes (totalNodes e + 1) e

theorem engineSet_maxBytes (hash : List Nat → Nat) (e : Engine) (key value : List Nat)
    (now : Nat) : (engineSet hash e key value now).maxBytes = e.maxBytes := by
  unfold engineSet
  rcases hf : findNode (getShard e (shardIndex hash e key)) key with _ | node
  · simp only []
    rw [evictIfNeeded_maxBytes, setStage2_maxBytes]
  · simp only []
    by_cases hexp : node.isExpiredAt now
    · rw [if_pos hexp, evictIfNeeded_maxBytes, setStage2_maxBytes]
    · rw [if_neg hexp, evictIfNeeded_maxBytes, setStage2_maxBytes]

theorem engineGet_maxBytes (hash : List Nat → Nat) (e : Engine) (key : List Nat)
    (now : Nat) : ((engineGet hash e key now).2).maxBytes = e.maxBytes := by
  unfold engineGet
  rcases hf : findNode (getShard e (shardIndex hash e key)) key with _ | node
  · rfl
  · simp only []
    by_cases hexp : node.isExpiredAt now
    · rw [if_pos hexp]
      rfl
    · rw [if_neg hexp]
      rfl

theorem engineDelete_maxBytes (hash : List Nat → Nat) (e : Engine) (key : List Nat)
    (now : Nat) : ((engineDelete hash e key now).2).maxBytes = e.maxBytes := by
  unfold engineDelete
  rcases hf : findNode (getShard e (shardIndex hash e key)) key with _ | node
  · rfl
  · rfl

theorem engineExpire_maxBytes (hash : List Nat → Nat) (e : Engine) (key : List Nat)
    (ttl now : Nat) : ((engineExpire hash e key ttl now).2).maxBytes = e.maxBytes := by
  unfold engineExpire
  rcases hf : findNode (getShard e (shardIndex hash e key)) key with _ | node
  · rfl
  · simp only []
    by_cases hexp : node.isExpiredAt now
    · rw [if_pos hexp]
      rfl
    · rw [if_neg hexp]
      rfl

theorem engineLookup_setShard (hash : List Nat → Nat) (e : Engine) (i : Nat)
    (sNew : List Node) (hi : i < e.shards.length) (key : List Nat) :
    engineLookup hash (setShard e i sNew) key =
      if shardIndex hash e key = i then
        (findNode sNew key).map (fun n => (n.value, n.expiresAt))
      else engineLookup hash e key :=
  engineLookup_update hash e (setShard e i sNew) i sNew rfl rfl hi key

theorem engineLookup_setShard_used (hash : List Nat → Nat) (e : Engine) (i : Nat)
    (sNew : List Node) (u : Nat) (hi : i < e.shards.length) (key : List Nat) :
    engineLookup hash { setShard e i sNew with usedBytes := u } key =
      if shardIndex hash e key = i then
        (findNode sNew key).map (fun n => (n.value, n.expiresAt))
      else engineLookup hash e key :=
  engineLookup_update hash e { setShard e i sNew with usedBytes := u } i sNew rfl rfl hi key

theorem engineGet_out (hash : List Nat → Nat) (e : Engine) (key : List Nat) (now : Nat) :
    (engineGet hash e key now).1 =
      (match engineLookup hash e key with
       | none => none
       | some vd => if isDead vd.2 now then none else some vd.1) := by
  unfold engineGet engineLookup
  rcases hf : findNode (getShard e (shardIndex hash e key)) key with _ | node
  · rfl
  · simp only [Option.map_some']
    by_cases hexp : node.isExpiredAt now
    · rw [if_pos hexp,
        if_pos (show isDead (node.value, node.expiresAt).2 now = true from hexp)]
    · rw [if_neg hexp,
        if_neg (show ¬ isDead (node.value, node.expiresAt).2 now = true from hexp)]

theorem engineGet_lookup_all (hash : List Nat → Nat) (k : Nat) (e : Engine)
    (key : List Nat) (now : Nat) (hWF : EngineWF hash k e) : ∀ key1,
    engineLookup hash (engineGet hash e key now).2 key1 =
      if key1 = key then
        (match engineLookup hash e key with
         | none => none
         | some vd => if isDead vd.2 now then none else some vd)
      else engineLookup hash e key1 := by
  intro key1
  have hi := shardIndex_lt hash k e key hWF
  have hnd := (hWF.2.2 (shardIndex hash e key) hi).1
  rcases hf : findNode (getShard e (shardIndex hash e key)) key with _ | node
  · have hl : engineLookup hash e key = none := by
      unfold engineLookup
      rw [hf]
      rfl
    unfold engineGet
    rw [hf, hl]
    simp only []
    by_cases hk : key1 = key
    · rw [if_pos hk, hk]
      exact hl
    · rw [if_neg hk]
  · have hl : engineLookup hash e key = some (node.value, node.expiresAt) := by
      unfold engineLookup
      rw [hf]
      rfl
    unfold engineGet
    rw [hf, hl]
    simp only []
    by_cases hexp : node.isExpiredAt now
    · rw [if_pos hexp,
        if_pos (show isDead (node.value, node.expiresAt).2 now = true from hexp)]
      rw [engineLookup_setShard_used hash e (shardIndex hash e key) _ _ hi key1]
      by_cases hk : key1 = key
      · rw [if_pos hk, hk, if_pos (Eq.refl (shardIndex hash e key))]
        rw [findNode_eraseNode_self _ _ hnd]
        rfl
      · rw [if_neg hk]
        by_cases hsh : shardIndex hash e key1 = shardIndex hash e key
        · rw [if_pos hsh, findNode_eraseNode_ne _ _ _ hk]
          unfold engineLookup
          rw [hsh]
        · rw [if_neg hsh]
    · rw [if_neg hexp,
        if_neg (show ¬ isDead (node.value, node.expiresAt).2 now = true from hexp)]
      rw [engineLookup_setShard hash e (shardIndex hash e key) _ hi key1]
      by_cases hk : key1 = key
      · rw [if_pos hk, hk, if_pos (Eq.refl (shardIndex hash e key))]
        rw [findNode_append, findNode_eraseNode_self _ _ hnd]
        simp [findNode, keyIs, (findNode_some_key hf).1]
      · rw [if_neg hk]
        by_cases hsh : shardIndex hash e key1 = shardIndex hash e key
        · rw [if_pos hsh, findNode_append, findNode_eraseNode_ne _ _ _ hk]
          have hnone : findNode [node] key1 = none := by
            rw [findNode_eq_none]
            intro n hn
            rcases List.mem_singleton.mp hn with rfl
            intro hc
            have hck : n.key = key1 := hc
            rw [(findNode_some_key hf).1] at hck
            exact hk hck.symm
          rw [hnone, Option.or_none]
          unfold engineLookup
          rw [hsh]
        · rw [if_neg hsh]

theorem engineDelete_lookup_all (hash : List Nat → Nat) (k : Nat) (e : Engine)
    (key : List Nat) (now : Nat) (hWF : EngineWF hash k e) : ∀ key1,
    engineLookup hash (engineDelete hash e key now).2 key1 =
      if key1 = key then none else engineLookup hash e key1 := by
  intro key1
  have hi := shardIndex_lt hash k e key hWF
  have hnd := (hWF.2.2 (shardIndex hash e key) hi).1
  rcases hf : findNode (getShard e (shardIndex hash e key)) key with _ | node
  · have hl : engineLookup hash e key = none := by
      unfold engineLookup
      rw [hf]
      rfl
    unfold engineDelete
    rw [hf]
    simp only []
    by_cases hk : key1 = key
    · rw [if_pos hk, hk]
      exact hl
    · rw [if_neg hk]
  · unfold engineDelete
    rw [hf]
    simp only []
    rw [engineLookup_setShard_used hash e (shardIndex hash e key) _ _ hi key1]
    by_cases hk : key1 = key
    · rw [if_pos hk, hk, if_pos (Eq.refl (shardIndex hash e key))]
      rw [findNode_eraseNode_self _ _ hnd]
      rfl
    · rw [if_neg hk]
      by_cases hsh : shardIndex hash e key1 = shardIndex hash e key
      · rw [if_pos hsh, findNode_eraseNode_ne _ _ _ hk]
        unfold engineLookup
        rw [hsh]
      · rw [if_neg hsh]

theorem engineExpire_lookup_all (hash : List Nat → Nat) (k : Nat) (e : Engine)
    (key : List Nat) (ttl now : Nat) (hWF : EngineWF hash k e) : ∀ key1,
    engineLookup hash (engineExpire hash e key ttl now).2 key1 =
      if key1 = key then
        (match engineLookup hash e key with
         | none => none
         | some vd => if isDead vd.2 now then none else some (vd.1, some (now + ttl)))
      else engineLookup hash e key1 := by
  intro key1
  have hi := shardIndex_lt hash k e key hWF
  have hnd := (hWF.2.2 (shardIndex hash e key) hi).1
  rcases hf : findNode (getShard e (shardIndex hash e key)) key with _ | node
  · have hl : engineLookup hash e key = none := by
      unfold engineLookup
      rw [hf]
      rfl
    unfold engineExpire
    rw [hf, hl]
    simp only []
    by_cases hk : key1 = key
    · rw [if_pos hk, hk]
      exact hl
    · rw [if_neg hk]
  · have hl : engineLookup hash e key = some (node.value, node.expiresAt) := by
      unfold engineLookup
      rw [hf]
      rfl
    unfold engineExpire
    rw [hf, hl]
    simp only []
    by_cases hexp : node.isExpiredAt now
    · rw [if_pos hexp,
        if_pos (show isDead (node.value, node.expiresAt).2 now = true from hexp)]
      rw [engineLookup_setShard_used hash e (shardIndex hash e key) _ _ hi key1]
      by_cases hk : key1 = key
      · rw [if_pos hk, hk, if_pos (Eq.refl (shardIndex hash e key))]
        rw [findNode_eraseNode_self _ _ hnd]
        rfl
      · rw [if_neg hk]
        by_cases hsh : shardIndex hash e key1 = shardIndex hash e key
        · rw [if_pos hsh, findNode_eraseNode_ne _ _ _ hk]
          unfold engineLookup
          rw [hsh]
        · rw [if_neg hsh]
    · rw [if_neg hexp,
        if_neg (show ¬ isDead (node.value, node.expiresAt).2 now = true from hexp)]
      rw [engineLookup_setShard hash e (shardIndex hash e key) _ hi key1]
      by_cases hk : key1 = key
      · rw [if_pos hk, hk, if_pos (Eq.refl (shardIndex hash e key))]
        rw [findNode_modifyNode_self _ _ (fun n => { n with expiresAt := some (now + ttl) }) (fun n => rfl)]
        rw [hf]
        rfl
      · rw [if_neg hk]
        by_cases hsh : shardIndex hash e key1 = shardIndex hash e key
        · rw [if_pos hsh, findNode_modifyNode_ne _ _ _ (fun n => { n with expiresAt := some (now + ttl) }) (fun n => rfl) hk]
          unfold engineLookup
          rw [hsh]
        · rw [if_neg hsh]

theorem engineSet_lookup_all (hash : List Nat → Nat) (k : Nat) (e : Engine)
    (key value : List Nat) (now : Nat) (hWF : EngineWF hash k e)
    (hmax : e.maxBytes = usizeMax) : ∀ key1,
    engineLookup hash (engineSet hash e key value now) key1 =
      if key1 = key then some (value, none) else engineLookup hash e key1 := by
  intro key1
  by_cases hk : key1 = key
  · rw [if_pos hk, hk]
    unfold engineLookup
    rw [engineSet_lookup hash k e key value now hWF hmax]
    rfl
  · rw [if_neg hk]
    have hi := shardIndex_lt hash k e key hWF
    have hnd := (hWF.2.2 (shardIndex hash e key) hi).1
    unfold engineSet
    rcases hf : findNode (getShard e (shardIndex hash e key)) key with _ | node
    · simp only []
      rw [evictIfNeeded_of_max _ ((setStage2_maxBytes e (shardIndex hash e key)
        (getShard e (shardIndex hash e key)) e.usedBytes key value).trans hmax)]
      unfold setStage2
      rw [hf]
      simp only []
      rw [engineLookup_setShard_used hash e (shardIndex hash e key) _ _ hi key1]
      by_cases hsh : shardIndex hash e key1 = shardIndex hash e key
      · rw [if_pos hsh, findNode_append]
        have hnone : findNode [{ key := key, value := value, expiresAt := none, size := entrySize key.length value.length }] key1 = none := by
          rw [findNode_eq_none]
          intro n hn
          rcases List.mem_singleton.mp hn with rfl
          exact fun hc => hk hc.symm
        rw [hnone, Option.or_none]
        unfold engineLookup
        rw [hsh]
      · rw [if_neg hsh]
    · simp only []
      by_cases hexp : node.isExpiredAt now
      · rw [if_pos hexp]
        rw [evictIfNeeded_of_max _ ((setStage2_maxBytes e (shardIndex hash e key)
          (eraseNode (getShard e (shardIndex hash e key)) key)
          (e.usedBytes - node.size) key value).trans hmax)]
        have hf2 : findNode (eraseNode (getShard e (shardIndex hash e key)) key) key =
            none := findNode_eraseNode_self _ _ hnd
        unfold setStage2
        rw [hf2]
        simp only []
        rw [engineLookup_setShard_used hash e (shardIndex hash e key) _ _ hi key1]
        by_cases hsh : shardIndex hash e key1 = shardIndex hash e key
        · rw [if_pos hsh, findNode_append, findNode_eraseNode_ne _ _ _ hk]
          have hnone : findNode [{ key := key, value := value, expiresAt := none, size := entrySize key.length value.length }] key1 = none := by
            rw [findNode_eq_none]
            intro n hn
            rcases List.mem_singleton.mp hn with rfl
            exact fun hc => hk hc.symm
          rw [hnone, Option.or_none]
          unfold engineLookup
          rw [hsh]
        · rw [if_neg hsh]
      · rw [if_neg hexp]
        rw [evictIfNeeded_of_max _ ((setStage2_maxBytes e (shardIndex hash e key)
          (getShard e (shardIndex hash e key)) e.usedBytes key value).trans hmax)]
        unfold setStage2
        rw [hf]
        simp only []
        rw [engineLookup_setShard_used hash e (shardIndex hash e key) _ _ hi key1]
        by_cases hsh : shardIndex hash e key1 = shardIndex hash e key
        · rw [if_pos hsh, findNode_append, findNode_eraseNode_ne _ _ _ hk]
          have hnone : findNode [{ key := node.key, value := value, expiresAt := none, size := entrySize key.length value.length }] key1 = none := by
            rw [findNode_eq_none]
            intro n hn
            rcases List.mem_singleton.mp hn with rfl
            intro hc
            have hck : node.key = key1 := hc
            rw [(findNode_some_key hf).1] at hck
            exact hk hck.symm
          rw [hnone, Option.or_none]
          unfold engineLookup
          rw [hsh]
        · rw [if_neg hsh]

theorem refGet_out (d : List Node) (key : List Nat) (now : Nat) :
    (refGet d key now).1 =
      (match refLookup d key with
       | none => none
       | some vd => if isDead vd.2 now then none else some vd.1) := by
  unfold refGet refLookup
  rcases hf : findNode d key with _ | en
  · rfl
  · simp only [Option.map_some']
    by_cases hexp : en.isExpiredAt now
    · rw [if_pos hexp,
        if_pos (show isDead (en.value, en.expiresAt).2 now = true from hexp)]
    · rw [if_neg hexp,
        if_neg (show ¬ isDead (en.value, en.expiresAt).2 now = true from hexp)]

theorem refGet_lookup_all (d : List Node) (key : List Nat) (now : Nat)
    (hnd : (shardKeys d).Nodup) : ∀ key1,
    refLookup (refGet d key now).2 key1 =
      if key1 = key then
        (match refLookup d key with
         | none => none
         | some vd => if isDead vd.2 now then none else some vd)
      else refLookup d key1 := by
  intro key1
  rcases hf : findNode d key with _ | en
  · have hl : refLookup d key = none := by
      unfold refLookup
      rw [hf]
      rfl
    unfold refGet
    rw [hf, hl]
    simp only []
    by_cases hk : key1 = key
    · rw [if_pos hk, hk]
      exact hl
    · rw [if_neg hk]
  · have hl : refLookup d key = some (en.value, en.expiresAt) := by
      unfold refLookup
      rw [hf]
      rfl
    unfold refGet
    rw [hf, hl]
    simp only []
    by_cases hexp : en.isExpiredAt now
    · rw [if_pos hexp,
        if_pos (show isDead (en.value, en.expiresAt).2 now = true from hexp)]
      unfold refLookup
      by_cases hk : key1 = key
      · rw [if_pos hk, hk, findNode_eraseNode_self _ _ hnd]
        rfl
      · rw [if_neg hk, findNode_eraseNode_ne _ _ _ hk]
    · rw [if_neg hexp,
        if_neg (show ¬ isDead (en.value, en.expiresAt).2 now = true from hexp)]
      by_cases hk : key1 = key
      · rw [if_pos hk, hk]
        exact hl
      · rw [if_neg hk]

theorem refSet_lookup_all (d : List Node) (key value : List Nat)
    (hnd : (shardKeys d).Nodup) : ∀ key1,
    refLookup (refSet d key value) key1 =
      if key1 = key then some (value, none) else refLookup d key1 := by
  intro key1
  unfold refSet refLookup
  rw [findNode_append]
  by_cases hk : key1 = key
  · rw [if_pos hk, hk, findNode_eraseNode_self _ _ hnd]
    simp [findNode, keyIs]
  · rw [if_neg hk, findNode_eraseNode_ne _ _ _ hk]
    have hnone : findNode [{ key := key, value := value, expiresAt := none, size := 0 }] key1 = none := by
      rw [findNode_eq_none]
      intro n hn
      rcases List.mem_singleton.mp hn with rfl
      exact fun hc => hk hc.symm
    rw [hnone, Option.or_none]

theorem refDelete_lookup_all (d : List Node) (key : List Nat)
    (hnd : (shardKeys d).Nodup) : ∀ key1,
    refLookup (refDelete d key) key1 =
      if key1 = key then none else refLookup d key1 := by
  intro key1
  unfold refDelete refLookup
  by_cases hk : key1 = key
  · rw [if_pos hk, hk, findNode_eraseNode_self _ _ hnd]
    rfl
  · rw [if_neg hk, findNode_eraseNode_ne _ _ _ hk]

theorem refExpire_lookup_all (d : List Node) (key : List Nat) (ttl now : Nat)
    (hnd : (shardKeys d).Nodup) : ∀ key1,
    refLookup (refExpire d key ttl now) key1 =
      if key1 = key then
        (match refLookup d key with
         | none => none
         | some vd => if isDead vd.2 now then none else some (vd.1, some (now + ttl)))
      else refLookup d key1 := by
  intro key1
  rcases hf : findNode d key with _ | en
  · have hl : refLookup d key = none := by
      unfold refLookup
      rw [hf]
      rfl
    unfold refExpire
    rw [hf, hl]
    simp only []
    by_cases hk : key1 = key
    · rw [if_pos hk, hk]
      exact hl
    · rw [if_neg hk]
  · have hl : refLookup d key = some (en.value, en.expiresAt) := by
      unfold refLookup
      rw [hf]
      rfl
    unfold refExpire
    rw [hf, hl]
    simp only []
    by_cases hexp : en.isExpiredAt now
    · rw [if_pos hexp,
        if_pos (show isDead (en.value, en.expiresAt).2 now = true from hexp)]
      unfold refLookup
      by_cases hk : key1 = key
      · rw [if_pos hk, hk, findNode_eraseNode_self _ _ hnd]
        rfl
      · rw [if_neg hk, findNode_eraseNode_ne _ _ _ hk]
    · rw [if_neg hexp,
        if_neg (show ¬ isDead (en.value, en.expiresAt).2 now = true from hexp)]
      unfold refLookup
      by_cases hk : key1 = key
      · rw [if_pos hk, hk,
          findNode_modifyNode_self _ _ (fun n => { n with expiresAt := some (now + ttl) }) (fun n => rfl)]
        rw [hf]
        rfl
      · rw [if_neg hk,
          findNode_modifyNode_ne _ _ _ (fun n => { n with expiresAt := some (now + ttl) }) (fun n => rfl) hk]

theorem shardKeys_append_new (d : List Node) (key : List Nat) (nn : Node)
    (hk : nn.key = key) (hnd : (shardKeys d).Nodup) :
    (shardKeys (eraseNode d key ++ [nn])).Nodup := by
  unfold shardKeys
  rw [List.map_append, List.nodup_append]
  refine ⟨shardKeys_eraseNode_nodup hnd, List.nodup_singleton _, ?_⟩
  intro a ha hb
  simp only [List.map_cons, List.map_nil, List.mem_singleton] at hb
  subst hb
  rw [hk] at ha
  exact key_not_mem_eraseNode d key hnd ha

theorem refSet_nodup (d : List Node) (key value : List Nat)
    (hnd : (shardKeys d).Nodup) : (shardKeys (refSet d key value)).Nodup :=
  shardKeys_append_new d key _ rfl hnd

theorem refDelete_nodup (d : List Node) (key : List Nat)
    (hnd : (shardKeys d).Nodup) : (shardKeys (refDelete d key)).Nodup :=
  shardKeys_eraseNode_nodup hnd

theorem refGet_nodup (d : List Node) (key : List Nat) (now : Nat)
    (hnd : (shardKeys d).Nodup) : (shardKeys (refGet d key now).2).Nodup := by
  unfold refGet
  rcases hf : findNode d key with _ | en
  · exact hnd
  · simp only []
    by_cases hexp : en.isExpiredAt now
    · rw [if_pos hexp]
      exact shardKeys_eraseNode_nodup hnd
    · rw [if_neg hexp]
      exact hnd

theorem refExpire_nodup (d : List Node) (key : List Nat) (ttl now : Nat)
    (hnd : (shardKeys d).Nodup) : (shardKeys (refExpire d key ttl now)).Nodup := by
  unfold refExpire
  rcases hf : findNode d key with _ | en
  · exact hnd
  · simp only []
    by_cases hexp : en.isExpiredAt now
    · rw [if_pos hexp]
      exact shardKeys_eraseNode_nodup hnd
    · rw [if_neg hexp]
      rw [shardKeys_modifyNode _ _ (fun n => { n with expiresAt := some (now + ttl) }) (fun n => rfl)]
      exact hnd

theorem engineRun_eq_refRun (hash : List Nat → Nat) (k : Nat) (ops : List (COp × Nat)) :
    ∀ (e : Engine) (d : List Node), EngineWF hash k e → EngineACC e →
      e.maxBytes = usizeMax →
      (∀ key, engineLookup hash e key = refLookup d key) →
      (shardKeys d).Nodup →
      engineRun hash e ops = refRun d ops := by
  induction ops with
  | nil =>
    intro e d _ _ _ _ _
    rfl
  | cons p rest ih =>
    rcases p with ⟨op, now⟩
    intro e d hWF hACC hmax hR hnd
    cases op with
    | setC key value =>
      show engineRun hash (engineSet hash e key value now) rest =
        refRun (refSet d key value) rest
      refine ih (engineSet hash e key value now) (refSet d key value)
        (engineSet_preserves hash k e key value now hWF hACC).1
        (engineSet_preserves hash k e key value now hWF hACC).2
        (by rw [engineSet_maxBytes]; exact hmax) ?_ (refSet_nodup d key value hnd)
      intro key1
      rw [engineSet_lookup_all hash k e key value now hWF hmax key1,
        refSet_lookup_all d key value hnd key1]
      by_cases hk : key1 = key
      · rw [if_pos hk, if_pos hk]
      · rw [if_neg hk, if_neg hk]
        exact hR key1
    | delC key =>
      show engineRun hash (engineDelete hash e key now).2 rest =
        refRun (refDelete d key) rest
      refine ih _ _
        (engineDelete_preserves hash k e key now hWF hACC).1
        (engineDelete_preserves hash k e key now hWF hACC).2
        (by rw [engineDelete_maxBytes]; exact hmax) ?_ (refDelete_nodup d key hnd)
      intro key1
      rw [engineDelete_lookup_all hash k e key now hWF key1,
        refDelete_lookup_all d key hnd key1]
      by_cases hk : key1 = key
      · rw [if_pos hk, if_pos hk]
      · rw [if_neg hk, if_neg hk]
        exact hR key1
    | expireC key ttl =>
      show engineRun hash (engineExpire hash e key ttl now).2 rest =
        refRun (refExpire d key ttl now) rest
      refine ih _ _
        (engineExpire_preserves hash k e key ttl now hWF hACC).1
        (engineExpire_preserves hash k e key ttl now hWF hACC).2
        (by rw [engineExpire_maxBytes]; exact hmax) ?_ (refExpire_nodup d key ttl now hnd)
      intro key1
      rw [engineExpire_lookup_all hash k e key ttl now hWF key1,
        refExpire_lookup_all d key ttl now hnd key1, hR key]
      by_cases hk : key1 = key
      · rw [if_pos hk, if_pos hk]
      · rw [if_neg hk, if_neg hk]
        exact hR key1
    | getC key =>
      show ((engineGet hash e key now).1 :: engineRun hash (engineGet hash e key now).2 rest) =
        ((refGet d key now).1 :: refRun (refGet d key now).2 rest)
      have hout : (engineGet hash e key now).1 = (refGet d key now).1 := by
        rw [engineGet_out hash e key now, refGet_out d key now, hR key]
      have htail : engineRun hash (engineGet hash e key now).2 rest =
          refRun (refGet d key now).2 rest := by
        refine ih _ _
          (engineGet_preserves hash k e key now hWF hACC).1
          (engineGet_preserves hash k e key now hWF hACC).2
          (by rw [engineGet_maxBytes]; exact hmax) ?_ (refGet_nodup d key now hnd)
        intro key1
        rw [engineGet_lookup_all hash k e key now hWF key1,
          refGet_lookup_all d key now hnd key1, hR key]
        by_cases hk : key1 = key
        · rw [if_pos hk, if_pos hk]
        · rw [if_neg hk, if_neg hk]
          exact hR key1
      rw [hout, htail]

/-- Claim C1: for every hashing seed and every finite timed sequence of
set/delete/expire/get calls executed sequentially against a fresh
unbounded-capacity engine, each `get` returns exactly what replaying the
same sequence in order against the reference dictionary returns — the
reference removes an entry whose deadline is at or before the current time
whenever a read observes it, `set` stores the value and clears any
deadline, `delete` removes the key, `expire` sets a deadline on a live
entry, and `get` returns the stored value only while live. -/
theorem claim_C1_reference_simulation (hash : List Nat → Nat) (cnt : Nat)
    (ops : List (COp × Nat)) :
    engineRun hash (mkEngine cnt usizeMax) ops = refRun [] ops := by
  rcases mkEngine_WF hash cnt usizeMax with ⟨k, hWF, hACC⟩
  refine engineRun_eq_refRun hash k ops (mkEngine cnt usizeMax) [] hWF hACC rfl ?_ ?_
  · intro key
    unfold engineLookup refLookup
    rw [mkEngine_empty_shards]
  · exact List.nodup_nil

end KernelKV
